import Mathlib

/-!
Sessionizer (`main.go`): a shallow embedding and its verified properties

The Go program groups timestamped user events into per-user sessions
(`mergeUserEvents`), folding each run of events into one `Session` whose
metadata is a deep, earliest-wins merge (`mergeMaps`, `cloneMap`).

Modelling conventions.

* A Go slice is a `List`; an index read `events[i]` is `events[i]?`, and a read
  out of range (a Go panic) is `none`.
* `int64` timestamps are `Int`s in the range of `isInt64`; the one arithmetic
  operation of the program, the subtraction of two timestamps, wraps
  (`wrapInt64`).
* `map[string]interface{}` is `GoMap`: either the nil map or an allocated map,
  given by its entries.  A dynamic value (`interface{}`) is a `Value`: a
  non-map value, or a map.  An assignment into a nil map (a Go panic) is `none`.
* In-place mutation of the accumulator map is state passing: `mergeMaps`
  returns the new accumulator.
* `for` loops are structurally recursive on a fuel argument; running out of
  fuel is `none`, and the theorems show that the fuel given is enough.
* `sort.Slice` belongs to the Go standard library.  Its order among elements
  that compare equal is unspecified, so the two calls are taken as a parameter
  `SliceSort` constrained by the contract of `sort.Slice`; `goSort` is the
  insertion sort that `sort.Slice` runs on slices of at most 12 elements
  (Go 1.19 and later), `legacySort` what it runs on them in earlier releases.
-/

namespace Sessionizer

/-! ## Data model -/

/-- A dynamic value that is not a `map[string]interface{}`. -/
inductive Scalar where
  | str (s : String)
  | num (n : Int)
  | bool (b : Bool)
  | null
  deriving DecidableEq, Repr

mutual
/-- A value of type `interface{}` as the program distinguishes them. -/
inductive Value where
  | scalar (s : Scalar)
  | map (m : GoMap)
  deriving DecidableEq
/-- A value of type `map[string]interface{}`: nil, or an allocated map. -/
inductive GoMap where
  | nil
  | mk (entries : Entries)
  deriving DecidableEq
/-- The entries of an allocated map. -/
inductive Entries where
  | nil
  | cons (key : String) (val : Value) (rest : Entries)
  deriving DecidableEq
end

/-- `type Event struct` (lines 9-14). -/
structure Event where
  UserID : String
  TS : Int
  Type_ : String
  Meta : GoMap
  deriving DecidableEq

/-- `type Session struct` (lines 16-22). -/
structure Session where
  UserID : String
  StartTS : Int
  EndTS : Int
  Types : List String
  Meta : GoMap
  deriving DecidableEq

/-- `const sessionGapThreshold = 600` (line 24). -/
def sessionGapThreshold : Int := 600

/-- The range of `int64`. -/
def isInt64 (x : Int) : Prop := -2 ^ 63 ≤ x ∧ x < 2 ^ 63

instance (x : Int) : Decidable (isInt64 x) := by
  unfold isInt64; infer_instance

/-- The value an `int64` operation yields for the exact result `x`. -/
def wrapInt64 (x : Int) : Int := (x + 2 ^ 63) % 2 ^ 64 - 2 ^ 63

/-! ## Maps -/

/-- Entries in iteration order. -/
def Entries.toList : Entries → List (String × Value)
  | .nil => []
  | .cons k v rest => (k, v) :: Entries.toList rest

/-- The keys of the entries. -/
def Entries.keys : Entries → List String
  | .nil => []
  | .cons k _ rest => k :: Entries.keys rest

/-- Value stored under a key, if any. -/
def Entries.lookup (key : String) : Entries → Option Value
  | .nil => none
  | .cons k v rest => if k = key then some v else Entries.lookup key rest

/-- Replace the value stored under an existing key. -/
def Entries.set (key : String) (val : Value) : Entries → Entries
  | .nil => .nil
  | .cons k v rest =>
    if k = key then .cons k val rest else .cons k v (Entries.set key val rest)

/-- Add an entry for a key that is not present. -/
def Entries.add (key : String) (val : Value) : Entries → Entries
  | .nil => .cons key val .nil
  | .cons k v rest => .cons k v (Entries.add key val rest)

/-- The keys of a map; the nil map has none. -/
def GoMap.keys : GoMap → List String
  | .nil => []
  | .mk es => es.keys

/-- The read `v, exists := m[key]`; reading the nil map finds nothing. -/
def GoMap.lookup (key : String) : GoMap → Option Value
  | .nil => none
  | .mk es => es.lookup key

/-- The assignment `m[key] = val`; assigning into the nil map panics. -/
def GoMap.assign (key : String) (val : Value) : GoMap → Option GoMap
  | .nil => none
  | .mk es =>
    match es.lookup key with
    | some _ => some (.mk (es.set key val))
    | none => some (.mk (es.add key val))

mutual
/-- `cloneMap` (lines 131-146). -/
def cloneMap : GoMap → GoMap
  | .nil => .mk .nil
  | .mk es => .mk (cloneEntries es)
/-- The loop of `cloneMap` (lines 138-144). -/
def cloneEntries : Entries → Entries
  | .nil => .nil
  | .cons key (.map valMap) rest => .cons key (.map (cloneMap valMap)) (cloneEntries rest)
  | .cons key (.scalar s) rest => .cons key (.scalar s) (cloneEntries rest)
end

mutual
/-- `mergeMaps` (lines 107-129); the result is the accumulator `dst` after the call. -/
def mergeMaps (dst : GoMap) : GoMap → Option GoMap
  | .nil => some dst
  | .mk es => mergeEntries dst es
/-- The loop of `mergeMaps` (lines 109-128) over the entries of `src`. -/
def mergeEntries (dst : GoMap) : Entries → Option GoMap
  | .nil => some dst
  | .cons key (.map srcMap) rest =>
    match dst.lookup key with
    | some (.map dstMap) =>
      match mergeMaps dstMap srcMap with
      | none => none
      | some merged =>
        match dst.assign key (.map merged) with
        | none => none
        | some dst1 => mergeEntries dst1 rest
    | some (.scalar _) => mergeEntries dst rest
    | none =>
      match dst.assign key (.map (cloneMap srcMap)) with
      | none => none
      | some dst1 => mergeEntries dst1 rest
  | .cons key (.scalar s) rest =>
    match dst.lookup key with
    | some _ => mergeEntries dst rest
    | none =>
      match dst.assign key (.scalar s) with
      | none => none
      | some dst1 => mergeEntries dst1 rest
end

/-- The type assertion `v.(map[string]interface{})` succeeds. -/
def Value.isMap : Value → Bool
  | .map _ => true
  | .scalar _ => false

/-- The value `mergeMaps` stores under a new key (lines 123-127): a map is
cloned, any other value is stored as it is. -/
def cloneValue : Value → Value
  | .map srcMap => .map (cloneMap srcMap)
  | .scalar s => .scalar s

mutual
/-- A value with no nil map inside. -/
def Value.allocated : Value → Bool
  | .scalar _ => true
  | .map m => GoMap.allocated m
/-- A map that is allocated, and so is every map nested in it. -/
def GoMap.allocated : GoMap → Bool
  | .nil => false
  | .mk es => Entries.allocated es
/-- Entries whose values hold no nil map. -/
def Entries.allocated : Entries → Bool
  | .nil => true
  | .cons _ v rest => Value.allocated v && Entries.allocated rest
end

/-- The value under a key after `mergeMaps`, from the value the accumulator
and the value the source hold under it (lines 110-127). -/
def mergedAt : Option Value → Option Value → Option Value
  | some (.map dstMap), some (.map srcMap) => (mergeMaps dstMap srcMap).map Value.map
  | some dstVal, _ => some dstVal
  | none, some srcVal => some (cloneValue srcVal)
  | none, none => none

mutual
/-- Two values are equal as the program reads them: equal non-map values, or
maps with the same entries. -/
def Value.same : Value → Value → Bool
  | .scalar a, .scalar b => decide (a = b)
  | .map m1, .map m2 => GoMap.same m1 m2
  | _, _ => false
/-- Two maps hold the same entries, the nil map holding none. -/
def GoMap.same : GoMap → GoMap → Bool
  | .nil, .nil => true
  | .nil, .mk es2 => Entries.same .nil es2
  | .mk es1, .nil => Entries.same es1 .nil
  | .mk es1, .mk es2 => Entries.same es1 es2
/-- The same keys, in the same order, with values that are the same. -/
def Entries.same : Entries → Entries → Bool
  | .nil, .nil => true
  | .cons k1 v1 rest1, .cons k2 v2 rest2 =>
    decide (k1 = k2) && Value.same v1 v2 && Entries.same rest1 rest2
  | _, _ => false
end

/-- The maps of the conflict examples: `{"a": n}`. -/
def mapA (n : Int) : GoMap := .mk (.cons "a" (.scalar (.num n)) .nil)

/-- The maps of the conflict examples: `{"a": {key: n}}`. -/
def mapANested (key : String) (n : Int) : GoMap :=
  .mk (.cons "a" (.map (.mk (.cons key (.scalar (.num n)) .nil))) .nil)

/-- The map `{"a": m}` where `m` is the nil map. -/
def mapANil : GoMap := .mk (.cons "a" (.map .nil) .nil)

/-! ## Sorting -/

/-- The comparison `a < b` of two Go strings: lexicographic, character by character. -/
def strLess (a b : String) : Bool := decide (a.data < b.data)

/-- The comparison passed to the first `sort.Slice` (lines 34-39). -/
def eventLess (a b : Event) : Bool :=
  if a.UserID ≠ b.UserID then strLess a.UserID b.UserID else decide (a.TS < b.TS)

/-- The comparison passed to the second `sort.Slice` (lines 48-50). -/
def sessionLess (a b : Session) : Bool := decide (a.StartTS < b.StartTS)

/-- The two calls of `sort.Slice` (lines 34 and 48), as functions from the
slice before the call to the slice after it. -/
structure SliceSort where
  events : List Event → List Event
  sessions : List Session → List Session

/-- The contract of `sort.Slice` at its two call sites: the slice is permuted,
and afterwards no element is less than one standing before it. -/
structure SliceSort.Lawful (S : SliceSort) : Prop where
  events_perm : ∀ l, (S.events l).Perm l
  events_sorted : ∀ l, (S.events l).Pairwise (fun a b => eventLess b a = false)
  sessions_perm : ∀ l, (S.sessions l).Perm l
  sessions_sorted : ∀ l, (S.sessions l).Pairwise (fun a b => sessionLess b a = false)

/-- The inner loop of `insertionSort_func`: the new element, coming from the
right, is swapped leftwards while it is less than its left neighbour.  The
sorted part is held reversed, nearest neighbour first. -/
def sinkLeft {α : Type} (less : α → α → Bool) (x : α) : List α → List α
  | [] => [x]
  | p :: ps => if less x p then p :: sinkLeft less x ps else x :: p :: ps

/-- The outer loop of `insertionSort_func`; `done` is the sorted part, reversed. -/
def insertionLoop {α : Type} (less : α → α → Bool) : List α → List α → List α
  | done, [] => done.reverse
  | done, x :: todo => insertionLoop less (sinkLeft less x done) todo

/-- The insertion sort `sort.Slice` runs on a slice of at most 12 elements
(`insertionSort_func`, all of `pdqsort_func` on such a slice in Go 1.19 and
later). -/
def insertionSort_func {α : Type} (less : α → α → Bool) (l : List α) : List α :=
  insertionLoop less [] l

/-- The behaviour of `sort.Slice` on slices of at most 12 elements in Go 1.19
and later. -/
def goSort : SliceSort where
  events := insertionSort_func eventLess
  sessions := insertionSort_func sessionLess

/-- The Shell pass with gap 6 of `quickSort_func`, the sort `sort.Slice` runs
in the Go releases before 1.19, on a slice of at most 12 elements: the element
at index `i >= 6` is swapped with the element at `i - 6` when it is less.
`front` holds the first six elements and `back` the others. -/
def shellPass {α : Type} (less : α → α → Bool) : List α → List α → List α × List α
  | f :: front, b :: back =>
    let rest := shellPass less front back
    if less b f then (b :: rest.1, f :: rest.2) else (f :: rest.1, b :: rest.2)
  | front, [] => (front, [])
  | [], back => ([], back)

/-- The end of `quickSort_func` (Go before 1.19), which is all of it on a slice
of at most 12 elements: the Shell pass with gap 6, then the insertion sort. -/
def legacySort_func {α : Type} (less : α → α → Bool) (l : List α) : List α :=
  let passed := shellPass less (l.take 6) (l.drop 6)
  insertionSort_func less (passed.1 ++ passed.2)

/-- The behaviour of `sort.Slice` on slices of at most 12 elements in the Go
releases before 1.19. -/
def legacySort : SliceSort where
  events := legacySort_func eventLess
  sessions := legacySort_func sessionLess

/-- The pair by which `eventLess` compares, in lexicographic order. -/
def eventKey (e : Event) : Lex (List Char × Int) := toLex (e.UserID.data, e.TS)

/-! ## The sessionizer -/

/-- The ordering step of `mergeUserEvents` (lines 32-39): the slice `events`
after the step, and `sortedEvents`.  `sortedEvents` is a new slice (`make`)
filled by `copy`, and `sort.Slice` permutes that slice only. -/
def orderingStep (S : SliceSort) (events : List Event) : List Event × List Event :=
  let sortedEvents := events
  (events, S.events sortedEvents)

/-- The loop of `buildSession` (lines 85-102).  The state is the session under
construction, `prevType` and `*idx`. -/
def buildSessionLoop (events : List Event) (userID : String) :
    Nat → Session → String → Nat → Option (Session × Nat)
  | 0, _, _, _ => none
  | fuel + 1, session, prevType, idx =>
    if idx < events.length then
      match events[idx]? with
      | none => none
      | some currentEvent =>
        if currentEvent.UserID = userID then
          if idx = 0 then none
          else
            match events[idx - 1]? with
            | none => none
            | some previous =>
              if wrapInt64 (currentEvent.TS - previous.TS) > sessionGapThreshold then
                some (session, idx)
              else
                match mergeMaps session.Meta currentEvent.Meta with
                | none => none
                | some merged =>
                  if currentEvent.Type_ ≠ prevType then
                    buildSessionLoop events userID fuel
                      { session with
                        EndTS := currentEvent.TS
                        Types := session.Types ++ [currentEvent.Type_]
                        Meta := merged }
                      currentEvent.Type_ (idx + 1)
                  else
                    buildSessionLoop events userID fuel
                      { session with EndTS := currentEvent.TS, Meta := merged }
                      prevType (idx + 1)
        else some (session, idx)
    else some (session, idx)

/-- `buildSession` (lines 69-105): the session built and the value of `*idx`
on return. -/
def buildSession (events : List Event) (idx : Nat) (userID : String) :
    Option (Session × Nat) :=
  match events[idx]? with
  | none => none
  | some firstEvent =>
    buildSessionLoop events userID (events.length + 1)
      { UserID := userID
        StartTS := firstEvent.TS
        EndTS := firstEvent.TS
        Types := [firstEvent.Type_]
        Meta := cloneMap firstEvent.Meta }
      firstEvent.Type_ (idx + 1)

/-- The loop of `processUserSessions` (lines 60-63). -/
def processUserLoop (events : List Event) (userID : String) :
    Nat → Nat → List Session → Option (Nat × List Session)
  | 0, _, _ => none
  | fuel + 1, i, sessions =>
    if i < events.length then
      match events[i]? with
      | none => none
      | some e =>
        if e.UserID = userID then
          match buildSession events i userID with
          | none => none
          | some (session, i1) => processUserLoop events userID fuel i1 (sessions ++ [session])
        else some (i, sessions)
    else some (i, sessions)

/-- `processUserSessions` (lines 56-66): the index returned and `*sessions`
on return. -/
def processUserSessions (events : List Event) (startIdx : Nat) (sessions : List Session) :
    Option (Nat × List Session) :=
  match events[startIdx]? with
  | none => none
  | some e => processUserLoop events e.UserID (events.length + 1) startIdx sessions

/-- The loop of `mergeUserEvents` (lines 43-45). -/
def mergeUserLoop (events : List Event) : Nat → Nat → List Session → Option (List Session)
  | 0, _, _ => none
  | fuel + 1, i, sessions =>
    if i < events.length then
      match processUserSessions events i sessions with
      | none => none
      | some (i1, sessions1) => mergeUserLoop events fuel i1 sessions1
    else some sessions

/-- `mergeUserEvents` (lines 26-53). -/
def mergeUserEvents (S : SliceSort) (events : List Event) : Option (List Session) :=
  if events.length = 0 then some []
  else
    let sortedEvents := S.events events
    match mergeUserLoop sortedEvents (sortedEvents.length + 1) 0 [] with
    | none => none
    | some sessions => some (S.sessions sessions)

/-! ## The slice returned and its JSON text -/

/-- A Go slice value: the nil slice, or an allocated slice with its elements. -/
inductive GoSlice (α : Type) where
  | nil
  | alloc (elems : List α)
  deriving DecidableEq

/-- The slice value `mergeUserEvents` returns.  Line 28 returns the literal
`[]Session{}` and line 41 allocates with `make`; `append` and `sort.Slice`
keep a slice allocated, so no path returns the nil slice. -/
def mergeUserEventsValue (S : SliceSort) (events : List Event) : Option (GoSlice Session) :=
  match mergeUserEvents S events with
  | none => none
  | some sessions => some (.alloc sessions)

/-- The text `json.MarshalIndent` (line 161) gives for a slice, as far as the
slice value alone decides it: `null` for the nil slice and `[]` for an
allocated slice with no element.  The text of a non-empty array is the
parameter `elems`. -/
def marshalSlice {α : Type} (elems : List α → String) : GoSlice α → String
  | .nil => "null"
  | .alloc [] => "[]"
  | .alloc (x :: xs) => elems (x :: xs)

/-! ## The loops as functions on lists

The index loops above are characterised, in the theorems below, by the
following functions on the list of events still to be visited. -/

/-- The test of the loop of `buildSession` (lines 85-88): the event `cur`
continues the run that `prev` is the last event of. -/
def joins (prev cur : Event) : Bool :=
  decide (cur.UserID = prev.UserID) &&
    !decide (wrapInt64 (cur.TS - prev.TS) > sessionGapThreshold)

/-- The events the loop of `buildSession` visits after `prev` before it stops. -/
def runTail (prev : Event) : List Event → List Event
  | [] => []
  | e :: rest => if joins prev e then e :: runTail e rest else []

/-- The body of the loop of `buildSession` (lines 90-101) on the pair of the
session and `prevType`; the accumulator is allocated, so the merge returns. -/
def stepSession (st : Session × String) (currentEvent : Event) : Session × String :=
  let merged := (mergeMaps st.1.Meta currentEvent.Meta).getD st.1.Meta
  if currentEvent.Type_ ≠ st.2 then
    ({ st.1 with
        EndTS := currentEvent.TS
        Types := st.1.Types ++ [currentEvent.Type_]
        Meta := merged }, currentEvent.Type_)
  else ({ st.1 with EndTS := currentEvent.TS, Meta := merged }, st.2)

/-- The session `buildSession` starts with (lines 72-81). -/
def firstSession (userID : String) (firstEvent : Event) : Session × String :=
  ({ UserID := userID
     StartTS := firstEvent.TS
     EndTS := firstEvent.TS
     Types := [firstEvent.Type_]
     Meta := cloneMap firstEvent.Meta }, firstEvent.Type_)

/-- The session `buildSession` returns for a run of events, built for the
user of its first event. -/
def sessionOfRun : List Event → Option Session
  | [] => none
  | firstEvent :: rest =>
    some (rest.foldl stepSession (firstSession firstEvent.UserID firstEvent)).1

/-- The runs of a list of events: each event either continues the run of the
event before it (`joins`) or starts a new run. -/
def runsOf : List Event → List (List Event)
  | [] => []
  | e :: rest =>
    match runsOf rest with
    | (f :: run) :: runs => if joins e f then (e :: f :: run) :: runs else [e] :: (f :: run) :: runs
    | _ => [[e]]

/-- The run is a run of events of user `u`. -/
def runOfUser (u : String) : List Event → Bool
  | [] => false
  | e :: _ => decide (e.UserID = u)

/-- One call of `buildSession`: `*idx` on entry, the session returned, and
`*idx` on return. -/
structure Call where
  first : Nat
  session : Session
  next : Nat
  deriving DecidableEq

/-- The slice `events[first:next]` a call of `buildSession` has visited. -/
def Call.run (events : List Event) (c : Call) : List Event :=
  (events.drop c.first).take (c.next - c.first)

/-- The calls follow one another from index `i` to index `n`: each starts
where the one before it stopped, and visits at least one event. -/
def chained : Nat → List Call → Nat → Prop
  | i, [], n => i = n
  | i, c :: cs, n => c.first = i ∧ c.first < c.next ∧ chained c.next cs n

/-- The calls of `buildSession` made by the loops of `mergeUserEvents` and
`processUserSessions` from index `i` on, in order; every call is made with the
user of the event at `*idx` (lines 57-61). -/
def buildCalls (events : List Event) : Nat → Nat → Option (List Call)
  | 0, _ => none
  | fuel + 1, i =>
    if i < events.length then
      match events[i]? with
      | none => none
      | some e =>
        match buildSession events i e.UserID with
        | none => none
        | some (session, i1) =>
          match buildCalls events fuel i1 with
          | none => none
          | some calls => some (⟨i, session, i1⟩ :: calls)
    else some []

/-! ## The type sequence, as the specification words it -/

/-- The types kept after a type `prev` (none at the start of the run): a type
is kept iff it is the first of the run or differs from the type of the event
immediately before it. -/
def keepChanged : Option String → List String → List String
  | _, [] => []
  | prev, t :: rest =>
    if prev = some t then keepChanged (some t) rest else t :: keepChanged (some t) rest

/-- The sequence of types with consecutive duplicates collapsed. -/
def collapseTypes (types : List String) : List String := keepChanged none types

/-! ## The demonstration input of `main` -/

/-- Two events of one user at one timestamp, whose metadata conflict. -/
def tieEvents : List Event :=
  [ ⟨"u", 0, "t", mapA 1⟩,
    ⟨"u", 0, "t", mapA 2⟩ ]

/-- A run of one user with the types click, click, scroll, click. -/
def clickEvents : List Event :=
  [ ⟨"u1", 10, "click", .nil⟩,
    ⟨"u1", 20, "click", .nil⟩,
    ⟨"u1", 30, "scroll", .nil⟩,
    ⟨"u1", 40, "click", .nil⟩ ]

/-- One event whose metadata hold a nil map under the key `"a"`. -/
def nilNestedEvents : List Event := [ ⟨"u", 0, "t", mapANil⟩ ]

/-- Two users; the first has two sessions, more than 600 apart. -/
def gapEvents : List Event :=
  [ ⟨"u1", 0, "a", .nil⟩,
    ⟨"u2", 50, "b", mapA 7⟩,
    ⟨"u1", 100, "b", mapA 1⟩,
    ⟨"u1", 1000, "a", mapA 2⟩ ]

/-- Two events of user u1 at one timestamp, whose metadata conflict, four
events of user u2, and one event of user u0 in the seventh place. -/
def tieMixedEvents : List Event :=
  [ ⟨"u1", 0, "t", mapA 1⟩,
    ⟨"u1", 0, "t", mapA 2⟩,
    ⟨"u2", 0, "t", .nil⟩,
    ⟨"u2", 1, "t", .nil⟩,
    ⟨"u2", 2, "t", .nil⟩,
    ⟨"u2", 3, "t", .nil⟩,
    ⟨"u0", 0, "t", .nil⟩ ]

/-- Two users with one event each, at one timestamp. -/
def crossTieEvents : List Event :=
  [ ⟨"u1", 0, "t", .nil⟩,
    ⟨"u2", 0, "t", .nil⟩ ]

/-- The session lists of the users `users`, taken from the sessions `built`
and concatenated in the order of `users`. -/
def perUserConcat (users : List String) (built : List Session) : List Session :=
  (users.map (fun u => built.filter (fun s => decide (s.UserID = u)))).flatten

/-- Two events of one user at the least and the greatest `int64` timestamp. -/
def overflowEvents : List Event :=
  [ ⟨"u", -9223372036854775808, "a", .nil⟩,
    ⟨"u", 9223372036854775807, "b", .nil⟩ ]


/-- The map literal with one string entry. -/
def strMeta (key val : String) : GoMap := .mk (.cons key (.scalar (.str val)) .nil)

/-- The map literal with one numeric entry. -/
def numMeta (key : String) (val : Int) : GoMap := .mk (.cons key (.scalar (.num val)) .nil)

/-- The `events` literal of `main` (lines 149-157). -/
def mainEvents : List Event :=
  [ ⟨"u1", 1000, "click", strMeta "page" "/"⟩,
    ⟨"u1", 1500, "click", strMeta "page" "/home"⟩,
    ⟨"u1", 1600, "scroll", numMeta "depth" 100⟩,
    ⟨"u1", 1700, "scroll", numMeta "depth" 200⟩,
    ⟨"u1", 2200, "click", strMeta "page" "/about"⟩,
    ⟨"u2", 1200, "view", strMeta "item" "A"⟩,
    ⟨"u2", 1300, "view", strMeta "item" "B"⟩ ]

/-! ## Maps: reads after writes -/

theorem Entries.lookup_set (key key' : String) (val : Value) :
    ∀ es : Entries, (es.set key val).lookup key' =
      if key = key' ∧ (es.lookup key).isSome then some val else es.lookup key'
  | .nil => by simp [Entries.set, Entries.lookup]
  | .cons k v rest => by
    have ih := Entries.lookup_set key key' val rest
    by_cases h : k = key
    · subst h
      by_cases h2 : k = key' <;> simp [Entries.set, Entries.lookup, h2]
    · by_cases h2 : k = key'
      · subst h2
        simp [Entries.set, Entries.lookup, h, Ne.symm h]
      · simp [Entries.set, Entries.lookup, h, h2, ih]

theorem Entries.lookup_add (key key' : String) (val : Value) :
    ∀ es : Entries, es.lookup key = none → (es.add key val).lookup key' =
      if key = key' then some val else es.lookup key'
  | .nil => by simp [Entries.add, Entries.lookup]
  | .cons k v rest => by
    intro h
    by_cases hk : k = key
    · simp [Entries.lookup, hk] at h
    · simp only [Entries.lookup, hk, if_false] at h
      have ih := Entries.lookup_add key key' val rest h
      by_cases h2 : k = key'
      · subst h2
        simp [Entries.add, Entries.lookup, Ne.symm hk]
      · simp [Entries.add, Entries.lookup, h2, ih]

theorem GoMap.lookup_assign {m m' : GoMap} {key : String} {val : Value} (key' : String)
    (h : m.assign key val = some m') :
    m'.lookup key' = if key = key' then some val else m.lookup key' := by
  cases m with
  | nil => simp [GoMap.assign] at h
  | mk es =>
    simp only [GoMap.assign] at h
    cases hl : es.lookup key with
    | none =>
      simp only [hl] at h
      cases h
      simp [GoMap.lookup, Entries.lookup_add key key' val es hl]
    | some w =>
      simp only [hl] at h
      cases h
      simp only [GoMap.lookup, Entries.lookup_set, hl]
      by_cases hk : key = key' <;> simp [hk]

theorem Entries.mem_keys_entries (key : String) :
    ∀ es : Entries, key ∈ es.keys ↔ (es.lookup key).isSome
  | .nil => by simp [Entries.keys, Entries.lookup]
  | .cons k v rest => by
    have ih := Entries.mem_keys_entries key rest
    by_cases h : k = key
    · simp [Entries.keys, Entries.lookup, h]
    · simp [Entries.keys, Entries.lookup, h, ih, Ne.symm h]

theorem GoMap.mem_keys_map (key : String) (m : GoMap) :
    key ∈ m.keys ↔ (m.lookup key).isSome := by
  cases m with
  | nil => simp [GoMap.keys, GoMap.lookup]
  | mk es => simpa [GoMap.keys, GoMap.lookup] using Entries.mem_keys_entries key es

theorem GoMap.assign_isSome {m : GoMap} (key : String) (val : Value)
    (h : m ≠ .nil) : ∃ m', m.assign key val = some m' := by
  cases m with
  | nil => exact absurd rfl h
  | mk es =>
    simp only [GoMap.assign]
    cases es.lookup key <;> simp

/-! ## Maps: allocation -/

theorem Entries.allocated_of_entry (key : String) :
    ∀ (es : Entries) (v : Value), es.allocated = true → es.lookup key = some v →
      v.allocated = true
  | .nil, v => by simp [Entries.lookup]
  | .cons k w rest, v => by
    intro ha hl
    simp only [Entries.allocated, Bool.and_eq_true] at ha
    by_cases h : k = key
    · simp only [Entries.lookup, h, if_true, Option.some.injEq] at hl
      subst hl
      exact ha.1
    · simp only [Entries.lookup, h, if_false] at hl
      exact Entries.allocated_of_entry key rest v ha.2 hl

theorem Entries.allocated_set (key : String) (val : Value) (hv : val.allocated = true) :
    ∀ es : Entries, es.allocated = true → (es.set key val).allocated = true
  | .nil => by simp [Entries.set]
  | .cons k w rest => by
    intro ha
    simp only [Entries.allocated, Bool.and_eq_true] at ha
    by_cases h : k = key
    · simp [Entries.set, h, Entries.allocated, hv, ha.2]
    · simp [Entries.set, h, Entries.allocated, ha.1,
        Entries.allocated_set key val hv rest ha.2]

theorem Entries.allocated_add (key : String) (val : Value) (hv : val.allocated = true) :
    ∀ es : Entries, es.allocated = true → (es.add key val).allocated = true
  | .nil => by simp [Entries.add, Entries.allocated, hv]
  | .cons k w rest => by
    intro ha
    simp only [Entries.allocated, Bool.and_eq_true] at ha
    simp [Entries.add, Entries.allocated, ha.1, Entries.allocated_add key val hv rest ha.2]

theorem GoMap.allocated_assign {m : GoMap} (key : String) (val : Value)
    (hm : m.allocated = true) (hv : val.allocated = true) :
    ∃ m', m.assign key val = some m' ∧ m'.allocated = true := by
  cases m with
  | nil => simp [GoMap.allocated] at hm
  | mk es =>
    simp only [GoMap.allocated] at hm
    simp only [GoMap.assign]
    cases es.lookup key with
    | none => exact ⟨_, rfl, by simpa [GoMap.allocated] using Entries.allocated_add key val hv es hm⟩
    | some w => exact ⟨_, rfl, by simpa [GoMap.allocated] using Entries.allocated_set key val hv es hm⟩

theorem GoMap.allocated_of_lookup {m : GoMap} {key : String} {v : Value}
    (hm : m.allocated = true) (hl : m.lookup key = some v) : v.allocated = true := by
  cases m with
  | nil => simp [GoMap.allocated] at hm
  | mk es => exact Entries.allocated_of_entry key es v (by simpa [GoMap.allocated] using hm) hl

mutual
theorem cloneMap_allocated : ∀ m : GoMap, (cloneMap m).allocated = true
  | .nil => by simp [cloneMap, GoMap.allocated, Entries.allocated]
  | .mk es => by simpa [cloneMap, GoMap.allocated] using cloneEntries_allocated es
theorem cloneEntries_allocated : ∀ es : Entries, (cloneEntries es).allocated = true
  | .nil => by simp [cloneEntries, Entries.allocated]
  | .cons key (.map valMap) rest => by
    simp [cloneEntries, Entries.allocated, Value.allocated, cloneMap_allocated valMap,
      cloneEntries_allocated rest]
  | .cons key (.scalar s) rest => by
    simp [cloneEntries, Entries.allocated, Value.allocated, cloneEntries_allocated rest]
end

theorem cloneValue_allocated (v : Value) : (cloneValue v).allocated = true := by
  cases v with
  | scalar s => simp [cloneValue, Value.allocated]
  | map m => simpa [cloneValue, Value.allocated] using cloneMap_allocated m

mutual
theorem mergeMaps_allocated : ∀ (src dst : GoMap), dst.allocated = true →
    ∃ r, mergeMaps dst src = some r ∧ r.allocated = true
  | .nil, dst => fun h => ⟨dst, by simp [mergeMaps], h⟩
  | .mk es, dst => fun h => by
    simpa [mergeMaps] using mergeEntries_allocated es dst h
theorem mergeEntries_allocated : ∀ (es : Entries) (dst : GoMap), dst.allocated = true →
    ∃ r, mergeEntries dst es = some r ∧ r.allocated = true
  | .nil, dst => fun h => ⟨dst, by simp [mergeEntries], h⟩
  | .cons key (.map srcMap) rest, dst => fun h => by
    simp only [mergeEntries]
    cases hl : dst.lookup key with
    | none =>
      obtain ⟨d1, hd1, ha1⟩ := GoMap.allocated_assign key (.map (cloneMap srcMap)) h
        (by simpa [Value.allocated] using cloneMap_allocated srcMap)
      simp only [hd1]
      exact mergeEntries_allocated rest d1 ha1
    | some dv =>
      cases dv with
      | scalar s => exact mergeEntries_allocated rest dst h
      | map dstMap =>
        have hdm : dstMap.allocated = true := by
          simpa [Value.allocated] using GoMap.allocated_of_lookup h hl
        obtain ⟨mg, hmg, hamg⟩ := mergeMaps_allocated srcMap dstMap hdm
        obtain ⟨d1, hd1, ha1⟩ := GoMap.allocated_assign key (.map mg) h
          (by simpa [Value.allocated] using hamg)
        simp only [hmg, hd1]
        exact mergeEntries_allocated rest d1 ha1
  | .cons key (.scalar s) rest, dst => fun h => by
    simp only [mergeEntries]
    cases hl : dst.lookup key with
    | none =>
      obtain ⟨d1, hd1, ha1⟩ := GoMap.allocated_assign key (.scalar s) h
        (by simp [Value.allocated])
      simp only [hd1]
      exact mergeEntries_allocated rest d1 ha1
    | some dv => exact mergeEntries_allocated rest dst h
end

/-! ## Maps: the value under each key after `mergeMaps` -/

theorem Entries.lookup_eq_none_iff (key : String) (es : Entries) :
    es.lookup key = none ↔ key ∉ es.keys := by
  rw [Entries.mem_keys_entries]
  cases es.lookup key <;> simp

theorem GoMap.lookup_assign_ne {m m' : GoMap} {key key' : String} {val : Value}
    (h : m.assign key val = some m') (hne : key ≠ key') : m'.lookup key' = m.lookup key' := by
  rw [GoMap.lookup_assign key' h, if_neg hne]

theorem GoMap.lookup_assign_self {m m' : GoMap} {key : String} {val : Value}
    (h : m.assign key val = some m') : m'.lookup key = some val := by
  rw [GoMap.lookup_assign key h, if_pos rfl]

theorem mergeEntries_frame (k : String) :
    ∀ (es : Entries) (dst r : GoMap), mergeEntries dst es = some r → es.lookup k = none →
      r.lookup k = dst.lookup k
  | .nil, dst, r => by
    intro h _
    simp only [mergeEntries, Option.some.injEq] at h
    rw [h]
  | .cons key (.map srcMap) rest, dst, r => by
    intro h hk
    have hne : key ≠ k := by
      intro e; simp [Entries.lookup, e] at hk
    have hrest : rest.lookup k = none := by simpa [Entries.lookup, hne] using hk
    simp only [mergeEntries] at h
    cases hl : dst.lookup key with
    | none =>
      simp only [hl] at h
      cases hd : dst.assign key (.map (cloneMap srcMap)) with
      | none => simp [hd] at h
      | some d1 =>
        simp only [hd] at h
        rw [mergeEntries_frame k rest d1 r h hrest, GoMap.lookup_assign_ne hd hne]
    | some dv =>
      cases dv with
      | scalar s =>
        simp only [hl] at h
        exact mergeEntries_frame k rest dst r h hrest
      | map dstMap =>
        simp only [hl] at h
        cases hm : mergeMaps dstMap srcMap with
        | none => simp [hm] at h
        | some mg =>
          simp only [hm] at h
          cases hd : dst.assign key (.map mg) with
          | none => simp [hd] at h
          | some d1 =>
            simp only [hd] at h
            rw [mergeEntries_frame k rest d1 r h hrest, GoMap.lookup_assign_ne hd hne]
  | .cons key (.scalar s) rest, dst, r => by
    intro h hk
    have hne : key ≠ k := by
      intro e; simp [Entries.lookup, e] at hk
    have hrest : rest.lookup k = none := by simpa [Entries.lookup, hne] using hk
    simp only [mergeEntries] at h
    cases hl : dst.lookup key with
    | none =>
      simp only [hl] at h
      cases hd : dst.assign key (.scalar s) with
      | none => simp [hd] at h
      | some d1 =>
        simp only [hd] at h
        rw [mergeEntries_frame k rest d1 r h hrest, GoMap.lookup_assign_ne hd hne]
    | some dv =>
      simp only [hl] at h
      exact mergeEntries_frame k rest dst r h hrest

theorem mergedAt_none_right (d : Option Value) : mergedAt d none = d := by
  cases d with
  | none => rfl
  | some v => cases v <;> rfl

theorem mergeEntries_lookup (k : String) :
    ∀ (es : Entries) (dst r : GoMap), es.keys.Nodup → mergeEntries dst es = some r →
      r.lookup k = mergedAt (dst.lookup k) (es.lookup k)
  | .nil, dst, r => by
    intro _ h
    simp only [mergeEntries, Option.some.injEq] at h
    rw [h, Entries.lookup, mergedAt_none_right]
  | .cons key (.map srcMap) rest, dst, r => by
    intro hnd h
    simp only [Entries.keys, List.nodup_cons] at hnd
    have hrk : rest.lookup key = none := (Entries.lookup_eq_none_iff key rest).2 hnd.1
    simp only [mergeEntries] at h
    by_cases hne : key = k
    · subst hne
      simp only [Entries.lookup, if_true]
      cases hl : dst.lookup key with
      | none =>
        simp only [hl] at h
        cases hd : dst.assign key (.map (cloneMap srcMap)) with
        | none => simp [hd] at h
        | some d1 =>
          simp only [hd] at h
          rw [mergeEntries_frame key rest d1 r h hrk, GoMap.lookup_assign_self hd]
          rfl
      | some dv =>
        cases dv with
        | scalar s =>
          simp only [hl] at h
          rw [mergeEntries_frame key rest dst r h hrk, hl]
          rfl
        | map dstMap =>
          simp only [hl] at h
          cases hm : mergeMaps dstMap srcMap with
          | none => simp [hm] at h
          | some mg =>
            simp only [hm] at h
            cases hd : dst.assign key (.map mg) with
            | none => simp [hd] at h
            | some d1 =>
              simp only [hd] at h
              rw [mergeEntries_frame key rest d1 r h hrk, GoMap.lookup_assign_self hd]
              simp [mergedAt, hm]
    · simp only [Entries.lookup, hne, if_false]
      cases hl : dst.lookup key with
      | none =>
        simp only [hl] at h
        cases hd : dst.assign key (.map (cloneMap srcMap)) with
        | none => simp [hd] at h
        | some d1 =>
          simp only [hd] at h
          rw [mergeEntries_lookup k rest d1 r hnd.2 h, GoMap.lookup_assign_ne hd hne]
      | some dv =>
        cases dv with
        | scalar s =>
          simp only [hl] at h
          exact mergeEntries_lookup k rest dst r hnd.2 h
        | map dstMap =>
          simp only [hl] at h
          cases hm : mergeMaps dstMap srcMap with
          | none => simp [hm] at h
          | some mg =>
            simp only [hm] at h
            cases hd : dst.assign key (.map mg) with
            | none => simp [hd] at h
            | some d1 =>
              simp only [hd] at h
              rw [mergeEntries_lookup k rest d1 r hnd.2 h, GoMap.lookup_assign_ne hd hne]
  | .cons key (.scalar s) rest, dst, r => by
    intro hnd h
    simp only [Entries.keys, List.nodup_cons] at hnd
    have hrk : rest.lookup key = none := (Entries.lookup_eq_none_iff key rest).2 hnd.1
    simp only [mergeEntries] at h
    by_cases hne : key = k
    · subst hne
      simp only [Entries.lookup, if_true]
      cases hl : dst.lookup key with
      | none =>
        simp only [hl] at h
        cases hd : dst.assign key (.scalar s) with
        | none => simp [hd] at h
        | some d1 =>
          simp only [hd] at h
          rw [mergeEntries_frame key rest d1 r h hrk, GoMap.lookup_assign_self hd]
          rfl
      | some dv =>
        simp only [hl] at h
        rw [mergeEntries_frame key rest dst r h hrk, hl]
        cases dv <;> rfl
    · simp only [Entries.lookup, hne, if_false]
      cases hl : dst.lookup key with
      | none =>
        simp only [hl] at h
        cases hd : dst.assign key (.scalar s) with
        | none => simp [hd] at h
        | some d1 =>
          simp only [hd] at h
          rw [mergeEntries_lookup k rest d1 r hnd.2 h, GoMap.lookup_assign_ne hd hne]
      | some dv =>
        simp only [hl] at h
        exact mergeEntries_lookup k rest dst r hnd.2 h

theorem mergeMaps_lookup (k : String) (dst src r : GoMap) (hnd : src.keys.Nodup)
    (h : mergeMaps dst src = some r) :
    r.lookup k = mergedAt (dst.lookup k) (src.lookup k) := by
  cases src with
  | nil =>
    simp only [mergeMaps, Option.some.injEq] at h
    rw [h, GoMap.lookup, mergedAt_none_right]
  | mk es =>
    simp only [mergeMaps] at h
    exact mergeEntries_lookup k es dst r hnd h

/-! ## Maps: keys are kept, copies are equal -/

theorem GoMap.lookup_assign_isSome {m m' : GoMap} {key : String} {val : Value} (k : String)
    (h : m.assign key val = some m') (hk : (m.lookup k).isSome = true) :
    (m'.lookup k).isSome = true := by
  rw [GoMap.lookup_assign k h]
  split
  · rfl
  · exact hk

theorem mergeEntries_keeps (k : String) :
    ∀ (es : Entries) (dst r : GoMap), mergeEntries dst es = some r →
      (dst.lookup k).isSome = true → (r.lookup k).isSome = true
  | .nil, dst, r => by
    intro h hk
    simp only [mergeEntries, Option.some.injEq] at h
    rw [← h]; exact hk
  | .cons key (.map srcMap) rest, dst, r => by
    intro h hk
    simp only [mergeEntries] at h
    cases hl : dst.lookup key with
    | none =>
      simp only [hl] at h
      cases hd : dst.assign key (.map (cloneMap srcMap)) with
      | none => simp [hd] at h
      | some d1 =>
        simp only [hd] at h
        exact mergeEntries_keeps k rest d1 r h (GoMap.lookup_assign_isSome k hd hk)
    | some dv =>
      cases dv with
      | scalar s =>
        simp only [hl] at h
        exact mergeEntries_keeps k rest dst r h hk
      | map dstMap =>
        simp only [hl] at h
        cases hm : mergeMaps dstMap srcMap with
        | none => simp [hm] at h
        | some mg =>
          simp only [hm] at h
          cases hd : dst.assign key (.map mg) with
          | none => simp [hd] at h
          | some d1 =>
            simp only [hd] at h
            exact mergeEntries_keeps k rest d1 r h (GoMap.lookup_assign_isSome k hd hk)
  | .cons key (.scalar s) rest, dst, r => by
    intro h hk
    simp only [mergeEntries] at h
    cases hl : dst.lookup key with
    | none =>
      simp only [hl] at h
      cases hd : dst.assign key (.scalar s) with
      | none => simp [hd] at h
      | some d1 =>
        simp only [hd] at h
        exact mergeEntries_keeps k rest d1 r h (GoMap.lookup_assign_isSome k hd hk)
    | some dv =>
      simp only [hl] at h
      exact mergeEntries_keeps k rest dst r h hk

theorem mergeMaps_keeps (k : String) (dst src r : GoMap) (h : mergeMaps dst src = some r)
    (hk : (dst.lookup k).isSome = true) : (r.lookup k).isSome = true := by
  cases src with
  | nil =>
    simp only [mergeMaps, Option.some.injEq] at h
    rw [← h]; exact hk
  | mk es =>
    simp only [mergeMaps] at h
    exact mergeEntries_keeps k es dst r h hk

theorem mergeMaps_keys (dst src r : GoMap) (hnd : src.keys.Nodup)
    (h : mergeMaps dst src = some r) (k : String) :
    k ∈ r.keys ↔ k ∈ dst.keys ∨ k ∈ src.keys := by
  rw [GoMap.mem_keys_map, GoMap.mem_keys_map, GoMap.mem_keys_map]
  have hl := mergeMaps_lookup k dst src r hnd h
  constructor
  · intro hr
    rw [hl] at hr
    cases hd : dst.lookup k with
    | some dv => simp
    | none =>
      cases hs : src.lookup k with
      | some sv => simp
      | none => simp [hd, hs, mergedAt] at hr
  · intro hor
    cases hd : dst.lookup k with
    | some dv => exact mergeMaps_keeps k dst src r h (by simp [hd])
    | none =>
      cases hs : src.lookup k with
      | some sv => simp [hl, hd, hs, mergedAt]
      | none => simp [hd, hs] at hor

mutual
theorem cloneMap_of_allocated : ∀ m : GoMap, m.allocated = true → cloneMap m = m
  | .nil => by simp [GoMap.allocated]
  | .mk es => by
    intro h
    simp only [GoMap.allocated] at h
    simp [cloneMap, cloneEntries_of_allocated es h]
theorem cloneEntries_of_allocated : ∀ es : Entries, es.allocated = true → cloneEntries es = es
  | .nil => by simp [cloneEntries]
  | .cons key (.map valMap) rest => by
    intro h
    simp only [Entries.allocated, Value.allocated, Bool.and_eq_true] at h
    simp [cloneEntries, cloneMap_of_allocated valMap h.1, cloneEntries_of_allocated rest h.2]
  | .cons key (.scalar s) rest => by
    intro h
    simp only [Entries.allocated, Value.allocated, Bool.true_and] at h
    simp [cloneEntries, cloneEntries_of_allocated rest h]
end

theorem cloneValue_of_allocated (v : Value) (h : v.allocated = true) : cloneValue v = v := by
  cases v with
  | scalar s => rfl
  | map m =>
    simp only [Value.allocated] at h
    simp [cloneValue, cloneMap_of_allocated m h]

mutual
theorem cloneMap_same : ∀ m : GoMap, GoMap.same (cloneMap m) m = true
  | .nil => by simp [cloneMap, GoMap.same, Entries.same]
  | .mk es => by simpa [cloneMap, GoMap.same] using cloneEntries_same es
theorem cloneEntries_same : ∀ es : Entries, Entries.same (cloneEntries es) es = true
  | .nil => by simp [cloneEntries, Entries.same]
  | .cons key (.map valMap) rest => by
    simp [cloneEntries, Entries.same, Value.same, cloneMap_same valMap, cloneEntries_same rest]
  | .cons key (.scalar s) rest => by
    simp [cloneEntries, Entries.same, Value.same, cloneEntries_same rest]
end

theorem cloneValue_same (v : Value) : Value.same (cloneValue v) v = true := by
  cases v with
  | scalar s => simp [cloneValue, Value.same]
  | map m => simpa [cloneValue, Value.same] using cloneMap_same m

/-! ## Sorting: the comparisons and the insertion sort -/

theorem eventLess_iff (a b : Event) : eventLess a b = true ↔ eventKey a < eventKey b := by
  unfold eventLess eventKey strLess
  rw [Prod.Lex.lt_iff]
  by_cases h : a.UserID = b.UserID
  · simp [h]
  · have hd : a.UserID.data ≠ b.UserID.data := fun e => h (String.ext e)
    simp [h, hd]

theorem eventLess_eq_false_iff (a b : Event) :
    eventLess b a = false ↔ eventKey a ≤ eventKey b := by
  rw [← not_lt, ← eventLess_iff]
  simp

theorem sessionLess_iff (a b : Session) : sessionLess a b = true ↔ a.StartTS < b.StartTS := by
  simp [sessionLess]

theorem sessionLess_eq_false_iff (a b : Session) :
    sessionLess b a = false ↔ a.StartTS ≤ b.StartTS := by
  simp [sessionLess]

section Insertion

variable {α β : Type} [LinearOrder β] (less : α → α → Bool) (key : α → β)

theorem sinkLeft_perm (x : α) : ∀ l : List α, (sinkLeft less x l).Perm (x :: l)
  | [] => List.Perm.refl _
  | p :: ps => by
    unfold sinkLeft
    split
    · exact ((sinkLeft_perm x ps).cons p).trans (List.Perm.swap x p ps)
    · exact List.Perm.refl _

theorem sinkLeft_sorted (hless : ∀ a b, less a b = true ↔ key a < key b) (x : α) :
    ∀ l : List α, l.Pairwise (fun a b => key b ≤ key a) →
      (sinkLeft less x l).Pairwise (fun a b => key b ≤ key a)
  | [] => fun _ => by simp [sinkLeft]
  | p :: ps => fun h => by
    rw [List.pairwise_cons] at h
    unfold sinkLeft
    split
    · rename_i hlt
      rw [List.pairwise_cons]
      refine ⟨?_, sinkLeft_sorted hless x ps h.2⟩
      intro y hy
      rcases List.mem_cons.1 ((sinkLeft_perm less x ps).mem_iff.1 hy) with hy | hy
      · rw [hy]
        exact le_of_lt ((hless _ _).1 hlt)
      · exact h.1 y hy
    · rename_i hnlt
      have hpx : key p ≤ key x := by
        rw [← not_lt, ← hless]
        simpa using hnlt
      rw [List.pairwise_cons]
      refine ⟨?_, List.pairwise_cons.2 h⟩
      intro y hy
      rcases List.mem_cons.1 hy with hy | hy
      · rw [hy]; exact hpx
      · exact le_trans (h.1 y hy) hpx

theorem insertionLoop_perm : ∀ (todo done : List α),
    (insertionLoop less done todo).Perm (done.reverse ++ todo)
  | [], done => by simp [insertionLoop]
  | x :: todo, done => by
    unfold insertionLoop
    refine (insertionLoop_perm todo (sinkLeft less x done)).trans ?_
    have h1 : (sinkLeft less x done).reverse.Perm (x :: done.reverse) :=
      (List.reverse_perm _).trans
        ((sinkLeft_perm less x done).trans ((List.reverse_perm done).symm.cons x))
    have h2 : (x :: done.reverse ++ todo).Perm (done.reverse ++ x :: todo) :=
      List.perm_middle.symm
    exact (h1.append_right todo).trans h2

theorem insertionLoop_sorted (hless : ∀ a b, less a b = true ↔ key a < key b) :
    ∀ (todo done : List α), done.Pairwise (fun a b => key b ≤ key a) →
      (insertionLoop less done todo).Pairwise (fun a b => key a ≤ key b)
  | [], done => fun h => by
    simpa [insertionLoop, List.pairwise_reverse] using h
  | x :: todo, done => fun h => by
    unfold insertionLoop
    exact insertionLoop_sorted hless todo _ (sinkLeft_sorted less key hless x done h)

theorem insertionSort_func_perm (l : List α) : (insertionSort_func less l).Perm l := by
  simpa [insertionSort_func] using insertionLoop_perm less l []

theorem insertionSort_func_sorted (hless : ∀ a b, less a b = true ↔ key a < key b)
    (l : List α) : (insertionSort_func less l).Pairwise (fun a b => key a ≤ key b) :=
  insertionLoop_sorted less key hless l [] List.Pairwise.nil

end Insertion

theorem goSort_lawful : goSort.Lawful where
  events_perm := insertionSort_func_perm eventLess
  events_sorted := fun l =>
    (insertionSort_func_sorted eventLess eventKey eventLess_iff l).imp
      (fun h => (eventLess_eq_false_iff _ _).2 h)
  sessions_perm := insertionSort_func_perm sessionLess
  sessions_sorted := fun l =>
    (insertionSort_func_sorted sessionLess Session.StartTS sessionLess_iff l).imp
      (fun h => (sessionLess_eq_false_iff _ _).2 h)

/-- A sorted permutation of a strictly sorted list is that list. -/
theorem eq_of_perm_of_strict {α β : Type} [LinearOrder β] (key : α → β) :
    ∀ (l l' : List α), l'.Perm l → l'.Pairwise (fun a b => key a ≤ key b) →
      l.Pairwise (fun a b => key a < key b) → l' = l
  | [], l', hp, _, _ => List.Perm.eq_nil hp
  | a :: t, [], hp, _, _ => by simpa using hp.length_eq
  | a :: t, b :: t', hp, hs, hl => by
    rw [List.pairwise_cons] at hs hl
    have hab : b = a := by
      by_contra hne
      have hb : b ∈ t := by
        have : b ∈ a :: t := hp.mem_iff.1 (List.mem_cons_self _ _)
        rcases List.mem_cons.1 this with h | h
        · exact absurd h hne
        · exact h
      have ha : a ∈ t' := by
        have : a ∈ b :: t' := hp.mem_iff.2 (List.mem_cons_self _ _)
        rcases List.mem_cons.1 this with h | h
        · exact absurd h.symm hne
        · exact h
      exact absurd (hl.1 b hb) (not_lt.2 (hs.1 a ha))
    subst hab
    rw [eq_of_perm_of_strict key t t' (List.Perm.cons_inv hp) hs.2 hl.2]

/-! ## `buildSession` on the list of events -/

theorem getElem?_append_cons {α : Type} (pre rest : List α) (x : α) :
    (pre ++ x :: rest)[pre.length]? = some x := by
  rw [List.getElem?_append_right (le_refl _)]
  simp

theorem getElem?_append_cons_succ {α : Type} (pre rest : List α) (x y : α) :
    (pre ++ x :: y :: rest)[pre.length + 1]? = some y := by
  have h := getElem?_append_cons (pre ++ [x]) rest y
  simpa using h

theorem split_at_index {α : Type} (l : List α) (i : Nat) (e : α) (h : l[i]? = some e) :
    l = l.take i ++ e :: l.drop (i + 1) ∧ (l.take i).length = i := by
  obtain ⟨hi, rfl⟩ := List.getElem?_eq_some_iff.1 h
  refine ⟨?_, by simp; omega⟩
  rw [← List.drop_eq_getElem_cons hi, List.take_append_drop]

theorem stepSession_allocated (st : Session × String) (e : Event)
    (h : st.1.Meta.allocated = true) : (stepSession st e).1.Meta.allocated = true := by
  obtain ⟨r, hr, ha⟩ := mergeMaps_allocated e.Meta st.1.Meta h
  unfold stepSession
  simp only [hr, Option.getD_some]
  split <;> exact ha

theorem buildSessionLoop_eq (events : List Event) :
    ∀ (rest pre : List Event) (prev : Event) (fuel : Nat) (s : Session) (pt : String),
      events = pre ++ prev :: rest → rest.length < fuel → s.Meta.allocated = true →
      buildSessionLoop events prev.UserID fuel s pt (pre.length + 1) =
        some (((runTail prev rest).foldl stepSession (s, pt)).1,
          pre.length + 1 + (runTail prev rest).length)
  | [], pre, prev, fuel, s, pt => by
    intro he hf _
    obtain ⟨f, rfl⟩ : ∃ f, fuel = f + 1 := ⟨fuel - 1, by omega⟩
    have hlen : ¬ (pre.length + 1 < events.length) := by simp [he]
    simp [buildSessionLoop, hlen, runTail]
  | e :: rest, pre, prev, fuel, s, pt => by
    intro he hf ha
    obtain ⟨f, rfl⟩ : ∃ f, fuel = f + 1 := ⟨fuel - 1, by simp at hf; omega⟩
    have hlen : pre.length + 1 < events.length := by simp [he]
    have hcur : events[pre.length + 1]? = some e := by
      rw [he]
      exact getElem?_append_cons_succ pre rest prev e
    have hprev : events[pre.length]? = some prev := by
      rw [he]
      exact getElem?_append_cons pre (e :: rest) prev
    unfold buildSessionLoop
    simp only [hlen, if_true, hcur]
    by_cases hu : e.UserID = prev.UserID
    · simp only [hu, if_true, Nat.add_one_ne_zero, if_false, Nat.add_sub_cancel, hprev]
      by_cases hg : wrapInt64 (e.TS - prev.TS) > sessionGapThreshold
      · simp [hg, runTail, joins]
      · obtain ⟨r, hr, hra⟩ := mergeMaps_allocated e.Meta s.Meta ha
        have he2 : events = (pre ++ [prev]) ++ e :: rest := by simp [he]
        have hf2 : rest.length < f := by simp at hf; omega
        have hj : joins prev e = true := by simp [joins, hu, hg]
        simp only [hg, if_false, hr, runTail, hj, if_true, List.foldl_cons, List.length_cons]
        by_cases ht : e.Type_ = pt
        · have ih := buildSessionLoop_eq events rest (pre ++ [prev]) e f
            { s with EndTS := e.TS, Meta := r } pt he2 hf2 hra
          simp only [List.length_append, List.length_singleton] at ih
          simp only [hu] at ih
          simp only [ht, ne_eq, not_true_eq_false, if_false, ih]
          simp [stepSession, hr, ht]
          omega
        · have ih := buildSessionLoop_eq events rest (pre ++ [prev]) e f
            { s with EndTS := e.TS, Types := s.Types ++ [e.Type_], Meta := r } e.Type_
            he2 hf2 hra
          simp only [List.length_append, List.length_singleton] at ih
          simp only [hu] at ih
          simp only [ne_eq, ht, not_false_eq_true, if_true, ih]
          simp [stepSession, hr, ht]
          omega
    · simp [hu, runTail, joins]

theorem buildSession_eq (events pre rest : List Event) (e : Event)
    (he : events = pre ++ e :: rest) :
    buildSession events pre.length e.UserID =
      some ((((runTail e rest).foldl stepSession (firstSession e.UserID e)).1),
        pre.length + 1 + (runTail e rest).length) := by
  have hcur : events[pre.length]? = some e := by
    rw [he]
    exact getElem?_append_cons pre rest e
  unfold buildSession
  simp only [hcur]
  have := buildSessionLoop_eq events rest pre e (events.length + 1)
    (firstSession e.UserID e).1 e.Type_ he (by simp [he]; omega)
    (by simpa [firstSession] using cloneMap_allocated e.Meta)
  simpa [firstSession] using this

/-! ## Runs -/

theorem runTail_append_drop (e : Event) :
    ∀ rest : List Event, runTail e rest ++ rest.drop (runTail e rest).length = rest
  | [] => by simp [runTail]
  | f :: rest => by
    unfold runTail
    split
    · simp [runTail_append_drop f rest]
    · simp

theorem runTail_length_le (e : Event) (rest : List Event) :
    (runTail e rest).length ≤ rest.length := by
  have h := congrArg List.length (runTail_append_drop e rest)
  rw [List.length_append] at h
  omega

theorem runsOf_cons (e : Event) :
    ∀ rest : List Event,
      runsOf (e :: rest) = (e :: runTail e rest) :: runsOf (rest.drop (runTail e rest).length)
  | [] => by simp [runsOf, runTail]
  | f :: rest => by
    have ih := runsOf_cons f rest
    rw [runsOf, ih]
    by_cases hj : joins e f = true
    · simp [hj, runTail]
    · simp [hj, runTail, ih]

theorem runsOf_flatten : ∀ l : List Event, (runsOf l).flatten = l
  | [] => by simp [runsOf]
  | e :: rest => by
    have h1 := runTail_append_drop e rest
    have hlt : (rest.drop (runTail e rest).length).length < (e :: rest).length := by
      simp; omega
    have ih := runsOf_flatten (rest.drop (runTail e rest).length)
    rw [runsOf_cons, List.flatten_cons, ih, List.cons_append, h1]
termination_by l => l.length

theorem runsOf_ne_nil : ∀ (l : List Event), ∀ r ∈ runsOf l, r ≠ []
  | [] => by simp [runsOf]
  | e :: rest => by
    have hlt : (rest.drop (runTail e rest).length).length < (e :: rest).length := by
      simp; omega
    have ih := runsOf_ne_nil (rest.drop (runTail e rest).length)
    rw [runsOf_cons]
    intro r hr
    rcases List.mem_cons.1 hr with h | h
    · rw [h]; simp
    · exact ih r h
termination_by l => l.length

theorem runsOf_suffix : ∀ (A B : List (List Event)) (l : List Event),
    runsOf l = A ++ B → runsOf B.flatten = B
  | [], B, l => by
    intro h
    have hj := runsOf_flatten l
    rw [h] at hj
    simp only [List.nil_append] at hj h
    rw [hj, h]
  | r :: A, B, [] => by simp [runsOf]
  | r :: A, B, e :: rest => by
    intro h
    rw [runsOf_cons, List.cons_append, List.cons.injEq] at h
    exact runsOf_suffix A B _ h.2

/-! ## The loops on the list of events -/

theorem drop_take_mid {α : Type} (pre mid post : List α) (j : Nat)
    (hj : j = pre.length + mid.length) :
    ((pre ++ (mid ++ post)).drop pre.length).take (j - pre.length) = mid := by
  subst hj
  simp

theorem buildCalls_spec (events : List Event) :
    ∀ (n : Nat) (rest pre : List Event) (fuel : Nat), rest.length ≤ n →
      events = pre ++ rest → rest.length < fuel →
      ∃ calls, buildCalls events fuel pre.length = some calls ∧
        calls.map (Call.run events) = runsOf rest ∧
        (∀ c ∈ calls, sessionOfRun (c.run events) = some c.session) ∧
        chained pre.length calls events.length
  | n, [], pre, fuel => by
    intro _ he hf
    obtain ⟨f, rfl⟩ : ∃ f, fuel = f + 1 := ⟨fuel - 1, by omega⟩
    have hlen : ¬ (pre.length < events.length) := by simp [he]
    refine ⟨[], by simp [buildCalls, hlen], by simp [runsOf], by simp, ?_⟩
    simp [chained, he]
  | 0, e :: rest, pre, fuel => by simp
  | n + 1, e :: rest, pre, fuel => by
    intro hn he hf
    obtain ⟨f, rfl⟩ : ∃ f, fuel = f + 1 := ⟨fuel - 1, by omega⟩
    have hlen : pre.length < events.length := by simp [he]
    have hcur : events[pre.length]? = some e := by
      rw [he]; exact getElem?_append_cons pre rest e
    have hb := buildSession_eq events pre rest e he
    have hsplit := runTail_append_drop e rest
    have hle := runTail_length_le e rest
    have he2 : events = (pre ++ e :: runTail e rest) ++ rest.drop (runTail e rest).length := by
      rw [he, List.append_assoc, List.cons_append, hsplit]
    have hlen2 : (pre ++ e :: runTail e rest).length = pre.length + 1 + (runTail e rest).length := by
      simp; omega
    obtain ⟨calls, hc, hruns, hsess, hch⟩ :=
      buildCalls_spec events n (rest.drop (runTail e rest).length) (pre ++ e :: runTail e rest) f
        (by simp at hn ⊢; omega) he2 (by simp at hf ⊢; omega)
    rw [hlen2] at hc hch
    have hrun : Call.run events
        ⟨pre.length, ((runTail e rest).foldl stepSession (firstSession e.UserID e)).1,
          pre.length + 1 + (runTail e rest).length⟩ = e :: runTail e rest := by
      unfold Call.run
      have he3 : events = pre ++ ((e :: runTail e rest) ++ rest.drop (runTail e rest).length) := by
        rw [he2, List.append_assoc]
      rw [he3]
      exact drop_take_mid pre (e :: runTail e rest) _ _ (by simp; omega)
    refine ⟨⟨pre.length, ((runTail e rest).foldl stepSession (firstSession e.UserID e)).1,
      pre.length + 1 + (runTail e rest).length⟩ :: calls, ?_, ?_, ?_, ?_⟩
    · unfold buildCalls
      simp only [hlen, if_true, hcur, hb, hc]
    · rw [List.map_cons, hrun, hruns, runsOf_cons]
    · intro c hcm
      rcases List.mem_cons.1 hcm with h | h
      · rw [h, hrun]
        rfl
      · exact hsess c h
    · exact ⟨rfl, by simp; omega, hch⟩

theorem processUserLoop_spec (events : List Event) (userID : String) :
    ∀ (n : Nat) (rest pre : List Event) (fuel : Nat) (acc : List Session), rest.length ≤ n →
      events = pre ++ rest → rest.length < fuel →
      ∃ A B, runsOf rest = A ++ B ∧
        processUserLoop events userID fuel pre.length acc =
          some (pre.length + A.flatten.length, acc ++ A.filterMap sessionOfRun) ∧
        (∀ e ∈ rest.head?, e.UserID = userID → A ≠ [])
  | n, [], pre, fuel, acc => by
    intro _ he hf
    obtain ⟨f, rfl⟩ : ∃ f, fuel = f + 1 := ⟨fuel - 1, by omega⟩
    have hlen : ¬ (pre.length < events.length) := by simp [he]
    exact ⟨[], [], by simp [runsOf], by simp [processUserLoop, hlen], by simp⟩
  | 0, e :: rest, pre, fuel, acc => by simp
  | n + 1, e :: rest, pre, fuel, acc => by
    intro hn he hf
    obtain ⟨f, rfl⟩ : ∃ f, fuel = f + 1 := ⟨fuel - 1, by omega⟩
    have hlen : pre.length < events.length := by simp [he]
    have hcur : events[pre.length]? = some e := by
      rw [he]; exact getElem?_append_cons pre rest e
    by_cases hu : e.UserID = userID
    · subst hu
      have hb := buildSession_eq events pre rest e he
      have hsplit := runTail_append_drop e rest
      have hle := runTail_length_le e rest
      have he2 : events =
          (pre ++ e :: runTail e rest) ++ rest.drop (runTail e rest).length := by
        rw [he, List.append_assoc, List.cons_append, hsplit]
      have hlen2 : (pre ++ e :: runTail e rest).length =
          pre.length + 1 + (runTail e rest).length := by
        simp; omega
      obtain ⟨A, B, hAB, hp, _⟩ :=
        processUserLoop_spec events e.UserID n (rest.drop (runTail e rest).length)
          (pre ++ e :: runTail e rest) f
          (acc ++ [((runTail e rest).foldl stepSession (firstSession e.UserID e)).1])
          (by simp at hn ⊢; omega) he2 (by simp at hf ⊢; omega)
      rw [hlen2] at hp
      refine ⟨(e :: runTail e rest) :: A, B, ?_, ?_, by simp⟩
      · rw [runsOf_cons, hAB, List.cons_append]
      · unfold processUserLoop
        simp only [hlen, if_true, hcur, hb, hp]
        simp [sessionOfRun]
        omega
    · refine ⟨[], runsOf (e :: rest), by simp, ?_, by simp [hu]⟩
      unfold processUserLoop
      simp [hlen, hcur, hu]

theorem mergeUserLoop_spec (events : List Event) :
    ∀ (n : Nat) (rest pre : List Event) (fuel : Nat) (acc : List Session), rest.length ≤ n →
      events = pre ++ rest → rest.length < fuel →
      mergeUserLoop events fuel pre.length acc =
        some (acc ++ (runsOf rest).filterMap sessionOfRun)
  | n, [], pre, fuel, acc => by
    intro _ he hf
    obtain ⟨f, rfl⟩ : ∃ f, fuel = f + 1 := ⟨fuel - 1, by omega⟩
    have hlen : ¬ (pre.length < events.length) := by simp [he]
    simp [mergeUserLoop, hlen, runsOf]
  | 0, e :: rest, pre, fuel, acc => by simp
  | n + 1, e :: rest, pre, fuel, acc => by
    intro hn he hf
    obtain ⟨f, rfl⟩ : ∃ f, fuel = f + 1 := ⟨fuel - 1, by omega⟩
    have hlen : pre.length < events.length := by simp [he]
    have hcur : events[pre.length]? = some e := by
      rw [he]; exact getElem?_append_cons pre rest e
    obtain ⟨A, B, hAB, hp, hA⟩ :=
      processUserLoop_spec events e.UserID (e :: rest).length (e :: rest) pre
        (events.length + 1) acc (le_refl _) he (by simp [he]; omega)
    have hAne : A ≠ [] := hA e (by simp) rfl
    have hflat : (e :: rest) = A.flatten ++ B.flatten := by
      have := runsOf_flatten (e :: rest)
      rw [hAB, List.flatten_append] at this
      exact this.symm
    have hApos : 0 < A.flatten.length := by
      cases A with
      | nil => exact absurd rfl hAne
      | cons r A' =>
        have hr : r ≠ [] := runsOf_ne_nil (e :: rest) r (by rw [hAB]; simp)
        cases r with
        | nil => exact absurd rfl hr
        | cons x r' => simp
    have hBlen : B.flatten.length ≤ n := by
      have := congrArg List.length hflat
      simp only [List.length_cons, List.length_append] at this hn
      omega
    have he2 : events = (pre ++ A.flatten) ++ B.flatten := by
      rw [he, hflat, List.append_assoc]
    have ih := mergeUserLoop_spec events n B.flatten (pre ++ A.flatten) f
      (acc ++ A.filterMap sessionOfRun) hBlen he2
      (by
        have := congrArg List.length hflat
        simp only [List.length_cons, List.length_append] at this hf
        omega)
    rw [List.length_append, runsOf_suffix A B (e :: rest) hAB] at ih
    unfold mergeUserLoop
    simp only [hlen, if_true, processUserSessions, hcur, hp, ih]
    rw [hAB, List.filterMap_append, List.append_assoc]

/-! ## `mergeUserEvents` on the sorted list of events -/

theorem sessions_of_calls (events : List Event) :
    ∀ calls : List Call, (∀ c ∈ calls, sessionOfRun (c.run events) = some c.session) →
      (calls.map (Call.run events)).filterMap sessionOfRun = calls.map Call.session
  | [], _ => rfl
  | c :: cs, h => by
    have hc := h c (List.mem_cons_self _ _)
    have ih := sessions_of_calls events cs (fun d hd => h d (List.mem_cons_of_mem _ hd))
    simp [List.filterMap_cons, hc, ih]

theorem sort_nil_events (S : SliceSort) (hS : S.Lawful) : S.events [] = [] :=
  List.Perm.eq_nil (hS.events_perm [])

theorem sort_nil_sessions (S : SliceSort) (hS : S.Lawful) : S.sessions [] = [] :=
  List.Perm.eq_nil (hS.sessions_perm [])

theorem sort_length_events (S : SliceSort) (hS : S.Lawful) (l : List Event) :
    (S.events l).length = l.length := (hS.events_perm l).length_eq

/-- The result of `mergeUserEvents` is the second sort applied to the sessions
of the runs of the sorted events. -/
theorem mergeUserEvents_runs (S : SliceSort) (hS : S.Lawful) (events : List Event) :
    mergeUserEvents S events =
      some (S.sessions ((runsOf (S.events events)).filterMap sessionOfRun)) := by
  unfold mergeUserEvents
  by_cases h0 : events.length = 0
  · have : events = [] := List.length_eq_zero.1 h0
    subst this
    simp [sort_nil_events S hS, runsOf, sort_nil_sessions S hS]
  · have h := mergeUserLoop_spec (S.events events) (S.events events).length (S.events events) []
      ((S.events events).length + 1) [] (le_refl _) (by simp) (by omega)
    simp only [List.length_nil, List.nil_append] at h
    simp only [h0, if_false, h]

/-- The calls of `buildSession` that `mergeUserEvents` makes, with the runs
they visit and the sessions they return. -/
theorem mergeUserEvents_calls (S : SliceSort) (hS : S.Lawful) (events : List Event) :
    ∃ calls, buildCalls (S.events events) ((S.events events).length + 1) 0 = some calls ∧
      mergeUserEvents S events = some (S.sessions (calls.map Call.session)) ∧
      calls.map (Call.run (S.events events)) = runsOf (S.events events) ∧
      (∀ c ∈ calls, sessionOfRun (c.run (S.events events)) = some c.session) ∧
      chained 0 calls (S.events events).length := by
  obtain ⟨calls, hc, hruns, hsess, hch⟩ :=
    buildCalls_spec (S.events events) (S.events events).length (S.events events) []
      ((S.events events).length + 1) (le_refl _) (by simp) (by omega)
  simp only [List.length_nil] at hc hch
  refine ⟨calls, hc, ?_, hruns, hsess, hch⟩
  rw [mergeUserEvents_runs S hS, ← hruns, sessions_of_calls _ calls hsess]

/-! ## The fields of the session of a run -/

theorem stepSession_user (st : Session × String) (e : Event) :
    (stepSession st e).1.UserID = st.1.UserID := by
  unfold stepSession
  split <;> rfl

theorem stepSession_start (st : Session × String) (e : Event) :
    (stepSession st e).1.StartTS = st.1.StartTS := by
  unfold stepSession
  split <;> rfl

theorem stepSession_end (st : Session × String) (e : Event) :
    (stepSession st e).1.EndTS = e.TS := by
  unfold stepSession
  split <;> rfl

theorem foldl_stepSession_user :
    ∀ (tail : List Event) (st : Session × String),
      (tail.foldl stepSession st).1.UserID = st.1.UserID
  | [], _ => rfl
  | e :: tail, st => by
    rw [List.foldl_cons, foldl_stepSession_user tail, stepSession_user]

theorem foldl_stepSession_start :
    ∀ (tail : List Event) (st : Session × String),
      (tail.foldl stepSession st).1.StartTS = st.1.StartTS
  | [], _ => rfl
  | e :: tail, st => by
    rw [List.foldl_cons, foldl_stepSession_start tail, stepSession_start]

theorem foldl_stepSession_end :
    ∀ (tail : List Event) (st : Session × String) (e : Event), st.1.EndTS = e.TS →
      ∃ b, (e :: tail).getLast? = some b ∧ (tail.foldl stepSession st).1.EndTS = b.TS
  | [], st, e => fun h => ⟨e, rfl, h⟩
  | f :: tail, st, e => fun _ => by
    obtain ⟨b, hb, hE⟩ := foldl_stepSession_end tail (stepSession st f) f (stepSession_end st f)
    refine ⟨b, ?_, by rw [List.foldl_cons]; exact hE⟩
    rw [List.getLast?_cons_cons]
    exact hb

theorem sessionOfRun_fields (e : Event) (tail : List Event) (s : Session)
    (h : sessionOfRun (e :: tail) = some s) :
    s.UserID = e.UserID ∧ s.StartTS = e.TS ∧
      ∃ b, (e :: tail).getLast? = some b ∧ s.EndTS = b.TS := by
  simp only [sessionOfRun, Option.some.injEq] at h
  subst h
  refine ⟨?_, ?_, ?_⟩
  · rw [foldl_stepSession_user]; rfl
  · rw [foldl_stepSession_start]; rfl
  · exact foldl_stepSession_end tail (firstSession e.UserID e) e rfl

/-! ## The events of a run -/

theorem runTail_user (e : Event) :
    ∀ rest : List Event, ∀ x ∈ runTail e rest, x.UserID = e.UserID
  | [] => by simp [runTail]
  | f :: rest => by
    unfold runTail
    split
    · rename_i hj
      have hf : f.UserID = e.UserID := by
        simp only [joins, Bool.and_eq_true, decide_eq_true_eq] at hj
        exact hj.1
      intro x hx
      rcases List.mem_cons.1 hx with h | h
      · rw [h, hf]
      · rw [runTail_user f rest x h, hf]
    · simp

theorem runTail_stop (e : Event) :
    ∀ (rest : List Event) (f : Event) (rest3 : List Event),
      rest.drop (runTail e rest).length = f :: rest3 →
      ∃ a, (e :: runTail e rest).getLast? = some a ∧ joins a f = false
  | [], f, rest3 => by simp
  | g :: rest, f, rest3 => by
    unfold runTail
    split
    · intro h
      simp only [List.length_cons, List.drop_succ_cons] at h
      obtain ⟨a, ha, hj⟩ := runTail_stop g rest f rest3 h
      exact ⟨a, by rw [List.getLast?_cons_cons]; exact ha, hj⟩
    · rename_i hj
      intro h
      simp only [List.length_nil, List.drop_zero, List.cons.injEq] at h
      refine ⟨e, rfl, ?_⟩
      rw [← h.1]
      simpa using hj

theorem runTail_chain (e : Event) :
    ∀ rest : List Event, (e :: runTail e rest).Chain' (fun a b => joins a b = true)
  | [] => by simp [runTail]
  | f :: rest => by
    unfold runTail
    split
    · rename_i hj
      exact List.Chain'.cons hj (runTail_chain f rest)
    · simp

theorem runsOf_user : ∀ (l : List Event), ∀ r ∈ runsOf l, ∀ e ∈ r.head?, ∀ x ∈ r,
    x.UserID = e.UserID
  | [] => by simp [runsOf]
  | e :: rest => by
    have hlt : (rest.drop (runTail e rest).length).length < (e :: rest).length := by
      simp; omega
    have ih := runsOf_user (rest.drop (runTail e rest).length)
    rw [runsOf_cons]
    intro r hr
    rcases List.mem_cons.1 hr with h | h
    · subst h
      intro e1 he1 x hx
      simp only [List.head?_cons, Option.mem_def, Option.some.injEq] at he1
      subst he1
      rcases List.mem_cons.1 hx with h | h
      · rw [h]
      · exact runTail_user e rest x h
    · exact ih r h
termination_by l => l.length

theorem runsOf_chain : ∀ (l : List Event), ∀ r ∈ runsOf l,
    r.Chain' (fun a b => joins a b = true)
  | [] => by simp [runsOf]
  | e :: rest => by
    have hlt : (rest.drop (runTail e rest).length).length < (e :: rest).length := by
      simp; omega
    have ih := runsOf_chain (rest.drop (runTail e rest).length)
    rw [runsOf_cons]
    intro r hr
    rcases List.mem_cons.1 hr with h | h
    · rw [h]; exact runTail_chain e rest
    · exact ih r h
termination_by l => l.length

theorem runsOf_boundary (Q : Event → Event → Prop) : ∀ (l : List Event), l.Pairwise Q →
    (runsOf l).Chain' (fun r1 r2 => ∃ a b, r1.getLast? = some a ∧ r2.head? = some b ∧
      joins a b = false ∧ Q a b)
  | [], _ => by simp [runsOf]
  | e :: rest, hQ => by
    have hlt : (rest.drop (runTail e rest).length).length < (e :: rest).length := by
      simp; omega
    have hsplit := runTail_append_drop e rest
    have hQ2 : ((e :: runTail e rest) ++ rest.drop (runTail e rest).length).Pairwise Q := by
      rw [List.cons_append, hsplit]; exact hQ
    rw [List.pairwise_append] at hQ2
    have ih := runsOf_boundary Q (rest.drop (runTail e rest).length) hQ2.2.1
    rw [runsOf_cons]
    rw [List.chain'_cons']
    refine ⟨?_, ih⟩
    intro r2 hr2
    cases hd : rest.drop (runTail e rest).length with
    | nil => simp [hd, runsOf] at hr2
    | cons f rest3 =>
      rw [hd, runsOf_cons] at hr2
      simp only [List.head?_cons, Option.mem_def, Option.some.injEq] at hr2
      subst hr2
      obtain ⟨a, ha, hj⟩ := runTail_stop e rest f rest3 hd
      exact ⟨a, f, ha, rfl, hj,
        hQ2.2.2 a (List.mem_of_mem_getLast? ha) f (by rw [hd]; simp)⟩
termination_by l => l.length

/-! ## Consequences of the order of the sorted events -/

theorem eventKey_le_user {a b : Event} (h : eventKey a ≤ eventKey b) :
    a.UserID.data ≤ b.UserID.data := by
  unfold eventKey at h
  rw [Prod.Lex.le_iff] at h
  rcases h with h | h
  · exact le_of_lt h
  · exact le_of_eq h.1

theorem eventKey_le_ts {a b : Event} (h : eventKey a ≤ eventKey b)
    (hu : a.UserID = b.UserID) : a.TS ≤ b.TS := by
  unfold eventKey at h
  rw [Prod.Lex.le_iff] at h
  rcases h with h | h
  · simp [hu] at h
  · exact h.2

theorem sorted_key (S : SliceSort) (hS : S.Lawful) (events : List Event) :
    (S.events events).Pairwise (fun a b => eventKey a ≤ eventKey b) :=
  (hS.events_sorted events).imp (fun h => (eventLess_eq_false_iff _ _).1 h)

theorem sort_events_of_strict (S : SliceSort) (hS : S.Lawful) (events l : List Event)
    (hp : events.Perm l) (hl : l.Pairwise (fun a b => eventKey a < eventKey b)) :
    S.events events = l :=
  eq_of_perm_of_strict eventKey l (S.events events) ((hS.events_perm events).trans hp)
    (sorted_key S hS events) hl

theorem sort_sessions_of_strict (S : SliceSort) (hS : S.Lawful) (l : List Session)
    (hl : l.Pairwise (fun a b => a.StartTS < b.StartTS)) : S.sessions l = l :=
  eq_of_perm_of_strict Session.StartTS l (S.sessions l) (hS.sessions_perm l)
    ((hS.sessions_sorted l).imp (fun h => (sessionLess_eq_false_iff _ _).1 h)) hl

theorem eventKey_lt_of_ts {a b : Event} (hu : a.UserID = b.UserID) (ht : a.TS < b.TS) :
    eventKey a < eventKey b := by
  unfold eventKey
  rw [Prod.Lex.lt_iff]
  exact Or.inr ⟨by rw [hu], ht⟩

theorem gap_of_wrap (d : Int) (h0 : 0 ≤ d) (h : wrapInt64 d > sessionGapThreshold) :
    d > 600 := by
  unfold wrapInt64 sessionGapThreshold at h
  norm_num at h
  omega

theorem wrap_small (d : Int) (h0 : -2 ^ 63 ≤ d) (h1 : d < 2 ^ 63) : wrapInt64 d = d := by
  unfold wrapInt64
  norm_num at h0 h1 ⊢
  omega

/-- In a list sorted by a key, the elements with one key stand together: a
relation that holds between neighbours with equal keys holds between the
neighbours of the list filtered by a key. -/
theorem chain'_filter_key {α β : Type} [LinearOrder β] (key : α → β) (R : α → α → Prop)
    (u : β) (p : α → Bool) (hp : ∀ a, p a = true ↔ key a = u) :
    ∀ l : List α, l.Pairwise (fun a b => key a ≤ key b) →
      l.Chain' (fun a b => key a = key b → R a b) →
      (l.filter p).Chain' R
  | [], _, _ => by simp
  | a :: t, hs, hc => by
    rw [List.pairwise_cons] at hs
    rw [List.chain'_cons'] at hc
    have ih := chain'_filter_key key R u p hp t hs.2 hc.2
    by_cases ha : key a = u
    · rw [List.filter_cons_of_pos ((hp a).2 ha), List.chain'_cons']
      refine ⟨?_, ih⟩
      intro b hb
      cases t with
      | nil => simp at hb
      | cons b0 t' =>
        by_cases hb0 : key b0 = u
        · rw [List.filter_cons_of_pos ((hp b0).2 hb0)] at hb
          simp only [List.head?_cons, Option.mem_def, Option.some.injEq] at hb
          subst hb
          exact hc.1 b0 (by simp) (by rw [ha, hb0])
        · exfalso
          have hbm : b ∈ (b0 :: t').filter p :=
            List.mem_of_mem_head? hb
          rw [List.filter_cons_of_neg (fun h => hb0 ((hp b0).1 h))] at hbm
          have hbt : b ∈ t' := (List.mem_filter.1 hbm).1
          have hbu : key b = u := (hp b).1 (List.mem_filter.1 hbm).2
          have h1 : key a ≤ key b0 := hs.1 b0 (by simp)
          have h2 : key b0 ≤ key b := (List.pairwise_cons.1 hs.2).1 b hbt
          apply hb0
          apply le_antisymm
          · rw [← hbu]; exact h2
          · rw [← ha]; exact h1
    · rw [List.filter_cons_of_neg (fun h => ha ((hp a).1 h))]
      exact ih

/-! ## The runs visited by the calls of `buildSession` -/

/-- A call made on the sorted events visits a non-empty run of events of one
user, the user of its session. -/
theorem call_run_user (events : List Event) (calls : List Call)
    (hruns : calls.map (Call.run events) = runsOf events)
    (hsess : ∀ c ∈ calls, sessionOfRun (c.run events) = some c.session)
    (c : Call) (hc : c ∈ calls) :
    ∃ e tail, c.run events = e :: tail ∧ c.session.UserID = e.UserID ∧
      ∀ x ∈ c.run events, x.UserID = c.session.UserID := by
  have hmem : c.run events ∈ runsOf events := by
    rw [← hruns]; exact List.mem_map_of_mem _ hc
  have hs := hsess c hc
  cases hr : c.run events with
  | nil => exact absurd hr (runsOf_ne_nil events _ hmem)
  | cons e tail =>
    rw [hr] at hs hmem
    have hf := sessionOfRun_fields e tail c.session hs
    refine ⟨e, tail, rfl, hf.1, ?_⟩
    intro x hx
    rw [hf.1]
    exact runsOf_user events _ hmem e (by simp) x hx

theorem calls_sorted_by_user (events : List Event) (calls : List Call)
    (hsorted : events.Pairwise (fun a b => eventKey a ≤ eventKey b))
    (hruns : calls.map (Call.run events) = runsOf events)
    (hsess : ∀ c ∈ calls, sessionOfRun (c.run events) = some c.session) :
    calls.Pairwise (fun c1 c2 => c1.session.UserID.data ≤ c2.session.UserID.data) := by
  have h1 : (calls.map (Call.run events)).flatten.Pairwise
      (fun a b => eventKey a ≤ eventKey b) := by
    rw [hruns, runsOf_flatten]; exact hsorted
  have h2 := (List.pairwise_flatten.1 h1).2
  rw [List.pairwise_map] at h2
  refine List.Pairwise.imp_of_mem ?_ h2
  intro c1 c2 hc1 hc2 h
  obtain ⟨e1, t1, hr1, hu1, _⟩ := call_run_user events calls hruns hsess c1 hc1
  obtain ⟨e2, t2, hr2, hu2, _⟩ := call_run_user events calls hruns hsess c2 hc2
  rw [hu1, hu2]
  exact eventKey_le_user (h e1 (by rw [hr1]; simp) e2 (by rw [hr2]; simp))

/-! ## Timestamps and types of a run -/

theorem pairwise_getLast {α : Type} (R : α → α → Prop) (l : List α) (b : α)
    (hp : l.Pairwise R) (hb : l.getLast? = some b) : ∀ x ∈ l, x = b ∨ R x b := by
  have hrev : l.reverse.Pairwise (fun x y => R y x) := List.pairwise_reverse.2 hp
  rw [← List.head?_reverse] at hb
  cases hr : l.reverse with
  | nil => simp [hr] at hb
  | cons c rest =>
    rw [hr] at hb hrev
    simp only [List.head?_cons, Option.some.injEq] at hb
    subst hb
    intro x hx
    have hx2 : x ∈ c :: rest := by rw [← hr]; exact List.mem_reverse.2 hx
    rcases List.mem_cons.1 hx2 with h | h
    · exact Or.inl h
    · exact Or.inr ((List.pairwise_cons.1 hrev).1 x h)

theorem foldl_stepSession_types :
    ∀ (tail : List Event) (st : Session × String),
      (tail.foldl stepSession st).1.Types =
        st.1.Types ++ keepChanged (some st.2) (tail.map Event.Type_)
  | [], st => by simp [keepChanged]
  | f :: tail, st => by
    rw [List.foldl_cons, foldl_stepSession_types tail]
    by_cases h : f.Type_ = st.2
    · simp [stepSession, keepChanged, h]
    · have h2 : ¬ st.2 = f.Type_ := fun e => h e.symm
      simp [stepSession, keepChanged, h, h2]

theorem sessionOfRun_types (e : Event) (tail : List Event) (s : Session)
    (h : sessionOfRun (e :: tail) = some s) :
    s.Types = collapseTypes ((e :: tail).map Event.Type_) := by
  simp only [sessionOfRun, Option.some.injEq] at h
  subst h
  rw [foldl_stepSession_types]
  simp [firstSession, collapseTypes, keepChanged]

/-! ## The sessions of one user -/

/-- A call made on the sorted events returns a session that starts at the
first event of its run and ends at the last, not before it starts. -/
theorem call_bounds (events : List Event) (calls : List Call)
    (hsorted : events.Pairwise (fun a b => eventKey a ≤ eventKey b))
    (hruns : calls.map (Call.run events) = runsOf events)
    (hsess : ∀ c ∈ calls, sessionOfRun (c.run events) = some c.session)
    (c : Call) (hc : c ∈ calls) :
    ∃ a b, (c.run events).head? = some a ∧ (c.run events).getLast? = some b ∧
      c.session.StartTS = a.TS ∧ c.session.EndTS = b.TS ∧ a.TS ≤ b.TS := by
  have hflat : ((calls.map (Call.run events)).flatten).Pairwise
      (fun a b => eventKey a ≤ eventKey b) := by
    rw [hruns, runsOf_flatten]; exact hsorted
  have hrunsorted := (List.pairwise_flatten.1 hflat).1 (c.run events)
    (List.mem_map_of_mem _ hc)
  obtain ⟨e, tail, hr, _, hall⟩ := call_run_user events calls hruns hsess c hc
  have hs := hsess c hc
  rw [hr] at hs hrunsorted
  obtain ⟨_, hstart, b, hb, hend⟩ := sessionOfRun_fields e tail c.session hs
  have hbm : b ∈ e :: tail := List.mem_of_mem_getLast? hb
  refine ⟨e, b, by rw [hr]; rfl, by rw [hr]; exact hb, hstart, hend, ?_⟩
  rcases List.mem_cons.1 hbm with h | h
  · rw [h]
  · refine eventKey_le_ts ((List.pairwise_cons.1 hrunsorted).1 b h) ?_
    rw [hall e (by rw [hr]; simp), hall b (by rw [hr]; exact hbm)]

/-- Between two calls that are neighbours among the calls made for one user,
the session of the latter starts more than 600 after the session of the
former ends. -/
theorem calls_user_chain (events : List Event) (calls : List Call)
    (hsorted : events.Pairwise (fun a b => eventKey a ≤ eventKey b))
    (hruns : calls.map (Call.run events) = runsOf events)
    (hsess : ∀ c ∈ calls, sessionOfRun (c.run events) = some c.session) (u : String) :
    (calls.filter (fun c => decide (c.session.UserID = u))).Chain'
      (fun c1 c2 => c1.session.EndTS + 600 < c2.session.StartTS) := by
  have hb := runsOf_boundary (fun a b => eventKey a ≤ eventKey b) events hsorted
  rw [← hruns, List.chain'_map] at hb
  have hmemchain := (List.Chain'.iff_mem).1 hb
  exact chain'_filter_key (fun c : Call => c.session.UserID.data)
    (fun c1 c2 => c1.session.EndTS + 600 < c2.session.StartTS)
    u.data (fun c => decide (c.session.UserID = u))
    (by
      intro c
      simp only [decide_eq_true_eq]
      exact ⟨fun h => by rw [h], fun h => String.ext h⟩)
    calls (calls_sorted_by_user _ calls hsorted hruns hsess)
    (hmemchain.imp (by
      intro c1 c2 ⟨hc1, hc2, a, b, ha, hbh, hj, hk⟩ hkey
      obtain ⟨_, _, _, _, hall1⟩ := call_run_user _ calls hruns hsess c1 hc1
      obtain ⟨_, _, _, _, hall2⟩ := call_run_user _ calls hruns hsess c2 hc2
      obtain ⟨_, b1, _, hb1, _, hend, _⟩ := call_bounds _ calls hsorted hruns hsess c1 hc1
      obtain ⟨a2, _, ha2, _, hstart, _, _⟩ := call_bounds _ calls hsorted hruns hsess c2 hc2
      rw [ha] at hb1
      rw [hbh] at ha2
      simp only [Option.some.injEq] at hb1 ha2
      subst hb1
      subst ha2
      have hu : a.UserID = b.UserID := by
        rw [hall1 a (List.mem_of_mem_getLast? ha), hall2 b (List.mem_of_mem_head? hbh),
          String.ext hkey]
      have hts : a.TS ≤ b.TS := eventKey_le_ts hk hu
      have hw : wrapInt64 (b.TS - a.TS) > sessionGapThreshold := by
        simpa [joins, hu] using hj
      have := gap_of_wrap _ (by omega) hw
      rw [hend, hstart]
      omega))

/-- The sessions built for one user, in the order they are built, are
disjoint and strictly ordered in time. -/
theorem user_sessions_strict (events : List Event) (calls : List Call)
    (hsorted : events.Pairwise (fun a b => eventKey a ≤ eventKey b))
    (hruns : calls.map (Call.run events) = runsOf events)
    (hsess : ∀ c ∈ calls, sessionOfRun (c.run events) = some c.session) (u : String) :
    ((calls.map Call.session).filter (fun s => decide (s.UserID = u))).Pairwise
      (fun s1 s2 => s1.EndTS + 600 < s2.StartTS ∧ s1.StartTS < s2.StartTS) := by
  have hchain := calls_user_chain events calls hsorted hruns hsess u
  have hmem := (List.Chain'.iff_mem).1 hchain
  have hle : ∀ c ∈ calls.filter (fun c => decide (c.session.UserID = u)),
      c.session.StartTS ≤ c.session.EndTS := by
    intro c hc
    obtain ⟨a, b, _, _, h1, h2, h3⟩ :=
      call_bounds events calls hsorted hruns hsess c (List.mem_filter.1 hc).1
    rw [h1, h2]; exact h3
  have hchain2 : (calls.filter (fun c => decide (c.session.UserID = u))).Chain'
      (fun c1 c2 => c1.session.EndTS + 600 < c2.session.StartTS ∧
        c2.session.StartTS ≤ c2.session.EndTS) :=
    hmem.imp (by
      intro c1 c2 ⟨_, h2, h⟩
      exact ⟨h, hle c2 h2⟩)
  haveI : IsTrans Call (fun c1 c2 => c1.session.EndTS + 600 < c2.session.StartTS ∧
      c2.session.StartTS ≤ c2.session.EndTS) :=
    ⟨fun a b c h1 h2 => ⟨by omega, h2.2⟩⟩
  have hpw := List.chain'_iff_pairwise.1 hchain2
  have hpw2 : (calls.filter (fun c => decide (c.session.UserID = u))).Pairwise
      (fun c1 c2 => c1.session.EndTS + 600 < c2.session.StartTS ∧
        c1.session.StartTS < c2.session.StartTS) := by
    refine List.Pairwise.imp_of_mem ?_ hpw
    intro c1 c2 h1 _ h
    have := hle c1 h1
    exact ⟨h.1, by omega⟩
  have hfm : (calls.map Call.session).filter (fun s => decide (s.UserID = u)) =
      (calls.filter (fun c => decide (c.session.UserID = u))).map Call.session := by
    rw [List.filter_map]
    rfl
  rw [hfm, List.pairwise_map]
  exact hpw2

/-- The second sort keeps the sessions of each user in the order in which
they were built. -/
theorem sort_keeps_user_order (S : SliceSort) (hS : S.Lawful) (L : List Session) (u : String)
    (hstrict : (L.filter (fun s => decide (s.UserID = u))).Pairwise
      (fun s1 s2 => s1.StartTS < s2.StartTS)) :
    (S.sessions L).filter (fun s => decide (s.UserID = u)) =
      L.filter (fun s => decide (s.UserID = u)) := by
  refine eq_of_perm_of_strict Session.StartTS _ _ ((hS.sessions_perm L).filter _) ?_ hstrict
  exact ((hS.sessions_sorted L).imp (fun h => (sessionLess_eq_false_iff _ _).1 h)).filter _

/-! ## The index loops return, within bounds -/

theorem buildSessionLoop_total (events : List Event) (userID : String) :
    ∀ (fuel : Nat) (s : Session) (pt : String) (idx : Nat), 0 < idx → idx ≤ events.length →
      events.length - idx < fuel → s.Meta.allocated = true →
      ∃ s1 j, buildSessionLoop events userID fuel s pt idx = some (s1, j) ∧
        idx ≤ j ∧ j ≤ events.length
  | 0, _, _, _ => by
    intro _ _ h
    omega
  | fuel + 1, s, pt, idx => by
    intro hpos hle hfuel ha
    unfold buildSessionLoop
    by_cases hlt : idx < events.length
    · have hcur : events[idx]? = some events[idx] := List.getElem?_eq_getElem hlt
      obtain ⟨prev, hprev⟩ : ∃ prev, events[idx - 1]? = some prev :=
        ⟨_, List.getElem?_eq_getElem (by omega)⟩
      simp only [hlt, if_true, hcur]
      by_cases hu : events[idx].UserID = userID
      · have h0 : idx ≠ 0 := by omega
        simp only [hu, if_true, h0, if_false, hprev]
        by_cases hg : wrapInt64 (events[idx].TS - prev.TS) > sessionGapThreshold
        · simp only [hg, if_true]
          exact ⟨s, idx, rfl, le_refl _, hle⟩
        · obtain ⟨r, hr, hra⟩ := mergeMaps_allocated events[idx].Meta s.Meta ha
          simp only [hg, if_false, hr]
          by_cases ht : events[idx].Type_ = pt
          · obtain ⟨s1, j, h1, h2, h3⟩ := buildSessionLoop_total events userID fuel
              { s with EndTS := events[idx].TS, Meta := r } pt (idx + 1)
              (by omega) (by omega) (by omega) hra
            simp only [ht, ne_eq, not_true_eq_false, if_false]
            exact ⟨s1, j, h1, by omega, h3⟩
          · obtain ⟨s1, j, h1, h2, h3⟩ := buildSessionLoop_total events userID fuel
              { s with EndTS := events[idx].TS, Types := s.Types ++ [events[idx].Type_],
                       Meta := r } events[idx].Type_ (idx + 1)
              (by omega) (by omega) (by omega) hra
            simp only [ne_eq, ht, not_false_eq_true, if_true]
            exact ⟨s1, j, h1, by omega, h3⟩
      · simp only [hu, if_false]
        exact ⟨s, idx, rfl, le_refl _, hle⟩
    · simp only [hlt, if_false]
      exact ⟨s, idx, rfl, le_refl _, hle⟩

theorem buildSession_total (events : List Event) (i : Nat) (userID : String)
    (hi : i < events.length) :
    ∃ s j, buildSession events i userID = some (s, j) ∧ i < j ∧ j ≤ events.length := by
  unfold buildSession
  rw [List.getElem?_eq_getElem hi]
  obtain ⟨s, j, h1, h2, h3⟩ := buildSessionLoop_total events userID (events.length + 1)
    { UserID := userID, StartTS := events[i].TS, EndTS := events[i].TS,
      Types := [events[i].Type_], Meta := cloneMap events[i].Meta }
    events[i].Type_ (i + 1) (by omega) (by omega) (by omega) (cloneMap_allocated _)
  exact ⟨s, j, h1, by omega, h3⟩

theorem runsOf_length_le : ∀ l : List Event, (runsOf l).length ≤ l.length
  | [] => by simp [runsOf]
  | e :: rest => by
    have ih := runsOf_length_le rest
    unfold runsOf
    split
    · rename_i f run runs heq
      rw [heq] at ih
      split <;> simp at ih ⊢ <;> omega
    · simp

theorem processUserSessions_total (events : List Event) (startIdx : Nat)
    (sessions : List Session) (hi : startIdx < events.length) :
    ∃ j out, processUserSessions events startIdx sessions = some (j, out) ∧
      startIdx < j ∧ j ≤ events.length ∧ sessions.length < out.length := by
  obtain ⟨hsplit, hlen⟩ := split_at_index events startIdx events[startIdx]
    (List.getElem?_eq_getElem hi)
  obtain ⟨A, B, hAB, hp, hA⟩ :=
    processUserLoop_spec events events[startIdx].UserID
      (events[startIdx] :: events.drop (startIdx + 1)).length
      (events[startIdx] :: events.drop (startIdx + 1)) (events.take startIdx)
      (events.length + 1) sessions (le_refl _) hsplit
      (by
        have := congrArg List.length hsplit
        rw [List.length_append] at this
        omega)
  rw [hlen] at hp
  have hAne : A ≠ [] := hA _ (by simp) rfl
  have hflat := runsOf_flatten (events[startIdx] :: events.drop (startIdx + 1))
  rw [hAB, List.flatten_append] at hflat
  have hlenAB := congrArg List.length hflat
  rw [List.length_append] at hlenAB
  have hlen2 := congrArg List.length hsplit
  rw [List.length_append, hlen] at hlen2
  have hne : ∀ r ∈ A, r ≠ [] := fun r hr =>
    runsOf_ne_nil _ r (by rw [hAB]; exact List.mem_append_left _ hr)
  cases A with
  | nil => exact absurd rfl hAne
  | cons r A1 =>
    have hr : r ≠ [] := hne r (List.mem_cons_self _ _)
    cases r with
    | nil => exact absurd rfl hr
    | cons x r1 =>
      refine ⟨_, _, by unfold processUserSessions; rw [List.getElem?_eq_getElem hi]; exact hp,
        ?_, ?_, ?_⟩
      · simp
      · omega
      · simp [List.filterMap_cons, sessionOfRun]

/-- In a list sorted by a key, the elements with one key stand together. -/
theorem sorted_contiguous {α β : Type} [LinearOrder β] (key : α → β) (u : β) (p : α → Bool)
    (hp : ∀ a, p a = true ↔ key a = u) :
    ∀ l : List α, l.Pairwise (fun a b => key a ≤ key b) →
      ∃ A C, l = A ++ l.filter p ++ C ∧ (∀ a ∈ A, key a < u) ∧ (∀ a ∈ C, u < key a)
  | [], _ => ⟨[], [], by simp, by simp, by simp⟩
  | e :: t, hs => by
    rw [List.pairwise_cons] at hs
    obtain ⟨A, C, ht, hA, hC⟩ := sorted_contiguous key u p hp t hs.2
    rcases lt_trichotomy (key e) u with h | h | h
    · have hpe : ¬ p e = true := fun hq => (ne_of_lt h) ((hp e).1 hq)
      refine ⟨e :: A, C, ?_, ?_, hC⟩
      · rw [List.filter_cons_of_neg hpe, List.cons_append, List.cons_append, ← ht]
      · intro a ha
        rcases List.mem_cons.1 ha with h1 | h1
        · rw [h1]; exact h
        · exact hA a h1
    · have hAnil : A = [] := by
        apply List.eq_nil_iff_forall_not_mem.2
        intro a ha
        have hat : a ∈ t := by rw [ht]; simp [ha]
        have h1 := hs.1 a hat
        have h2 := hA a ha
        rw [h] at h1
        exact absurd h2 (not_lt.2 h1)
      subst hAnil
      refine ⟨[], C, ?_, by simp, hC⟩
      rw [List.filter_cons_of_pos ((hp e).2 h)]
      simp only [List.nil_append, List.cons_append] at ht ⊢
      rw [← ht]
    · have hall : ∀ a ∈ t, u < key a := fun a ha => lt_of_lt_of_le h (hs.1 a ha)
      have hfil : (e :: t).filter p = [] := by
        apply List.filter_eq_nil_iff.2
        intro a ha hq
        have hk := (hp a).1 hq
        rcases List.mem_cons.1 ha with h1 | h1
        · rw [h1] at hk; exact absurd hk (ne_of_gt h)
        · exact absurd hk (ne_of_gt (hall a h1))
      refine ⟨[], e :: t, by rw [hfil]; simp, by simp, ?_⟩
      intro a ha
      rcases List.mem_cons.1 ha with h1 | h1
      · rw [h1]; exact h
      · exact hall a h1

theorem perUserConcat_perm : ∀ (users : List String) (built : List Session), users.Nodup →
    (∀ s ∈ built, s.UserID ∈ users) → (perUserConcat users built).Perm built
  | [], built, _, hcover => by
    have : built = [] := List.eq_nil_iff_forall_not_mem.2 (fun s hs => by simpa using hcover s hs)
    subst this
    simp [perUserConcat]
  | u :: us, built, hnd, hcover => by
    rw [List.nodup_cons] at hnd
    have hrest : us.map (fun v => built.filter (fun s => decide (s.UserID = v))) =
        us.map (fun v => (built.filter (fun s => !decide (s.UserID = u))).filter
          (fun s => decide (s.UserID = v))) := by
      apply List.map_congr_left
      intro v hv
      rw [List.filter_filter]
      apply List.filter_congr
      intro s _
      by_cases h : s.UserID = v
      · have : s.UserID ≠ u := fun e => hnd.1 (by rw [← e, h]; exact hv)
        simp [h, this]
        intro e
        exact this (by rw [h, e])
      · simp [h]
    have ih := perUserConcat_perm us (built.filter (fun s => !decide (s.UserID = u))) hnd.2
      (by
        intro s hs
        have h1 := (List.mem_filter.1 hs)
        have h2 := hcover s h1.1
        rcases List.mem_cons.1 h2 with h | h
        · simp [h] at h1
        · exact h)
    unfold perUserConcat at ih ⊢
    rw [List.map_cons, List.flatten_cons, hrest]
    exact (List.Perm.append_left _ ih).trans (List.filter_append_perm _ built)

/-! ## The runs of one user -/

theorem runsOf_head (f : Event) (rest : List Event) :
    ∃ run runs, runsOf (f :: rest) = (f :: run) :: runs :=
  ⟨_, _, runsOf_cons f rest⟩

theorem runsOf_cons_cons (e f : Event) (rest run : List Event) (runs : List (List Event))
    (h : runsOf (f :: rest) = (f :: run) :: runs) :
    runsOf (e :: f :: rest) =
      if joins e f then (e :: f :: run) :: runs else [e] :: (f :: run) :: runs := by
  rw [runsOf, h]

theorem runsOf_filter_user (u : String) :
    ∀ l : List Event, l.Pairwise (fun a b => a.UserID.data ≤ b.UserID.data) →
      runsOf (l.filter (fun e => decide (e.UserID = u))) = (runsOf l).filter (runOfUser u)
  | [], _ => by simp [runsOf]
  | [e], _ => by
    by_cases he : e.UserID = u <;> simp [runsOf, runOfUser, he]
  | e :: f :: rest, hs => by
    rw [List.pairwise_cons] at hs
    have ih := runsOf_filter_user u (f :: rest) hs.2
    obtain ⟨run, runs, hR⟩ := runsOf_head f rest
    rw [runsOf_cons_cons e f rest run runs hR]
    rw [hR] at ih
    by_cases he : e.UserID = u
    · rw [List.filter_cons_of_pos (by simpa using he)]
      by_cases hf : f.UserID = u
      · rw [List.filter_cons_of_pos (by simpa using hf)] at ih ⊢
        rw [List.filter_cons_of_pos (by simpa [runOfUser] using hf)] at ih
        rw [runsOf_cons_cons e f _ run _ ih]
        by_cases hj : joins e f = true
        · simp [hj, runOfUser, he]
        · simp [hj, runOfUser, he, hf]
      · have hnone : (f :: rest).filter (fun e => decide (e.UserID = u)) = [] := by
          apply List.filter_eq_nil_iff.2
          intro x hx hxu
          have hxu2 : x.UserID = u := by simpa using hxu
          have h1 : e.UserID.data ≤ f.UserID.data := hs.1 f (by simp)
          have h2 : f.UserID.data ≤ x.UserID.data := by
            rcases List.mem_cons.1 hx with h | h
            · rw [h]
            · exact (List.pairwise_cons.1 hs.2).1 x h
          apply hf
          apply String.ext
          apply le_antisymm
          · rw [← hxu2]; exact h2
          · rw [← he]; exact h1
        have hj : joins e f = false := by
          have : ¬ f.UserID = e.UserID := fun h => hf (by rw [h, he])
          simp [joins, this]
        rw [hnone] at ih ⊢
        simp only [runsOf] at ih
        simp [hj, runsOf, runOfUser, he, ← ih]
    · rw [List.filter_cons_of_neg (by simpa using he), ih]
      by_cases hj : joins e f = true
      · have hfu : ¬ f.UserID = u := by
          intro h
          simp only [joins, Bool.and_eq_true, decide_eq_true_eq] at hj
          exact he (by rw [← hj.1, h])
        simp [hj, runOfUser, he, hfu]
      · simp [hj, runOfUser, he]

theorem sessions_filter_user (u : String) :
    ∀ R : List (List Event),
      (R.filter (runOfUser u)).filterMap sessionOfRun =
        (R.filterMap sessionOfRun).filter (fun s => decide (s.UserID = u))
  | [] => rfl
  | [] :: R => by
    have ih := sessions_filter_user u R
    simp [runOfUser, sessionOfRun, ih]
  | (e :: tail) :: R => by
    have ih := sessions_filter_user u R
    have hu : (tail.foldl stepSession (firstSession e.UserID e)).1.UserID = e.UserID := by
      rw [foldl_stepSession_user]; rfl
    by_cases he : e.UserID = u
    · subst he
      simp [runOfUser, sessionOfRun, hu, ih]
    · simp [runOfUser, sessionOfRun, he, hu, ih]

/-- When sorting the events of one user gives the sorted events filtered to
that user, the sessions of the user in the result are the result on the
events of that user alone. -/
theorem user_independent_of_sort (S : SliceSort) (hS : S.Lawful) (events : List Event)
    (u : String)
    (hsort : S.events (events.filter (fun e => decide (e.UserID = u))) =
      (S.events events).filter (fun e => decide (e.UserID = u))) :
    (mergeUserEvents S events).map (List.filter (fun s => decide (s.UserID = u))) =
      mergeUserEvents S (events.filter (fun e => decide (e.UserID = u))) := by
  obtain ⟨calls, _, hm, hruns, hsess, _⟩ := mergeUserEvents_calls S hS events
  have hkey : (S.events events).Pairwise (fun a b => a.UserID.data ≤ b.UserID.data) :=
    (sorted_key S hS events).imp (fun h => eventKey_le_user h)
  have hst := user_sessions_strict _ calls (sorted_key S hS events) hruns hsess u
  have hL : (runsOf (S.events events)).filterMap sessionOfRun = calls.map Call.session := by
    rw [← hruns, sessions_of_calls _ calls hsess]
  rw [mergeUserEvents_runs S hS (events.filter _), hsort, runsOf_filter_user u _ hkey,
    sessions_filter_user, hL, hm, Option.map_some',
    sort_keeps_user_order S hS _ u (hst.imp (fun h => h.2)),
    sort_sessions_of_strict S hS _ (hst.imp (fun h => h.2))]

/-! ## The insertion sort keeps equal elements in input order -/

section Stable

variable {α β : Type} [LinearOrder β] (less : α → α → Bool) (key : α → β)

theorem sinkLeft_of_not_less (x : α) :
    ∀ l : List α, (∀ y ∈ l, less x y = false) → sinkLeft less x l = x :: l
  | [], _ => rfl
  | p0 :: ps, h => by
    simp [sinkLeft, h p0 (List.mem_cons_self _ _)]

theorem sinkLeft_filter (hless : ∀ a b, less a b = true ↔ key a < key b) (p : α → Bool)
    (x : α) :
    ∀ l : List α, l.Pairwise (fun a b => key b ≤ key a) →
      (sinkLeft less x l).filter p =
        if p x = true then sinkLeft less x (l.filter p) else l.filter p
  | [], _ => by
    by_cases hx : p x = true <;> simp [sinkLeft, hx]
  | p0 :: ps, hs => by
    rw [List.pairwise_cons] at hs
    have ih := sinkLeft_filter hless p x ps hs.2
    by_cases hl : less x p0 = true
    · have h1 : sinkLeft less x (p0 :: ps) = p0 :: sinkLeft less x ps := by
        simp [sinkLeft, hl]
      rw [h1]
      by_cases hp0 : p p0 = true
      · rw [List.filter_cons_of_pos hp0, List.filter_cons_of_pos hp0, ih]
        by_cases hx : p x = true
        · simp [hx, sinkLeft, hl]
        · simp [hx]
      · rw [List.filter_cons_of_neg hp0, List.filter_cons_of_neg hp0, ih]
    · have h1 : sinkLeft less x (p0 :: ps) = x :: p0 :: ps := by
        simp [sinkLeft, hl]
      rw [h1]
      have hle : key p0 ≤ key x := by
        rw [← not_lt, ← hless]
        exact hl
      by_cases hx : p x = true
      · rw [List.filter_cons_of_pos hx, if_pos hx]
        rw [sinkLeft_of_not_less less x]
        intro y hy
        have hy2 : y ∈ p0 :: ps := (List.mem_filter.1 hy).1
        have hyle : key y ≤ key x := by
          rcases List.mem_cons.1 hy2 with h | h
          · rw [h]; exact hle
          · exact le_trans (hs.1 y h) hle
        cases hxy : less x y with
        | false => rfl
        | true => exact absurd ((hless x y).1 hxy) (not_lt.2 hyle)
      · rw [List.filter_cons_of_neg hx, if_neg hx]

theorem insertionLoop_filter (hless : ∀ a b, less a b = true ↔ key a < key b)
    (p : α → Bool) :
    ∀ (todo done : List α), done.Pairwise (fun a b => key b ≤ key a) →
      (insertionLoop less done todo).filter p =
        insertionLoop less (done.filter p) (todo.filter p)
  | [], done, _ => by
    simp [insertionLoop, List.filter_reverse]
  | x :: todo, done, hs => by
    have hs2 := sinkLeft_sorted less key hless x done hs
    rw [insertionLoop, insertionLoop_filter hless p todo _ hs2,
      sinkLeft_filter less key hless p x done hs]
    by_cases hx : p x = true
    · rw [if_pos hx, List.filter_cons_of_pos hx, insertionLoop]
    · rw [if_neg hx, List.filter_cons_of_neg hx]

theorem insertionSort_func_filter (hless : ∀ a b, less a b = true ↔ key a < key b)
    (p : α → Bool) (l : List α) :
    (insertionSort_func less l).filter p = insertionSort_func less (l.filter p) := by
  unfold insertionSort_func
  rw [insertionLoop_filter less key hless p l [] List.Pairwise.nil]
  rfl

end Stable

theorem shellPass_perm {α : Type} (less : α → α → Bool) :
    ∀ front back : List α,
      ((shellPass less front back).1 ++ (shellPass less front back).2).Perm (front ++ back)
  | [], [] => by simp [shellPass]
  | [], b :: back => by simp [shellPass]
  | f :: front, [] => by simp [shellPass]
  | f :: front, b :: back => by
    have ih := shellPass_perm less front back
    have hmid : ∀ (x y : α) (xs ys : List α),
        (x :: xs ++ y :: ys).Perm (x :: y :: (xs ++ ys)) := fun x y xs ys =>
      (List.perm_middle : (xs ++ y :: ys).Perm (y :: (xs ++ ys))).cons x
    unfold shellPass
    split
    · exact (hmid b f _ _).trans (((ih.cons f).cons b).trans
        ((List.Perm.swap f b _).trans (hmid f b front back).symm))
    · exact (hmid f b _ _).trans (((ih.cons b).cons f).trans (hmid f b front back).symm)

theorem legacySort_func_perm {α : Type} (less : α → α → Bool) (l : List α) :
    (legacySort_func less l).Perm l := by
  unfold legacySort_func
  refine (insertionSort_func_perm less _).trans ?_
  have h := shellPass_perm less (l.take 6) (l.drop 6)
  rwa [List.take_append_drop] at h

theorem legacySort_lawful : legacySort.Lawful where
  events_perm := legacySort_func_perm eventLess
  events_sorted := fun _ =>
    (insertionSort_func_sorted eventLess eventKey eventLess_iff _).imp
      (fun h => (eventLess_eq_false_iff _ _).2 h)
  sessions_perm := legacySort_func_perm sessionLess
  sessions_sorted := fun _ =>
    (insertionSort_func_sorted sessionLess Session.StartTS sessionLess_iff _).imp
      (fun h => (sessionLess_eq_false_iff _ _).2 h)

/-! ## Claims -/

/-- C1: the runs that `mergeUserEvents` folds into sessions partition the
sorted events.  The calls of `buildSession` made on the sorted events return
the sessions of the result (which the second sort only permutes), each session
is the fold of the run its call visited, the runs concatenated in call order
are exactly the sorted events, themselves a permutation of the input, and the
run lengths sum to the number of input events. -/
theorem runs_partition_events (S : SliceSort) (hS : S.Lawful) (events : List Event) :
    ∃ calls, buildCalls (S.events events) ((S.events events).length + 1) 0 = some calls ∧
      mergeUserEvents S events = some (S.sessions (calls.map Call.session)) ∧
      (S.sessions (calls.map Call.session)).Perm (calls.map Call.session) ∧
      (∀ c ∈ calls, sessionOfRun (c.run (S.events events)) = some c.session) ∧
      chained 0 calls events.length ∧
      (calls.map (Call.run (S.events events))).flatten = S.events events ∧
      (S.events events).Perm events ∧
      ((calls.map (Call.run (S.events events))).map List.length).sum = events.length := by
  obtain ⟨calls, hc, hm, hruns, hsess, hch⟩ := mergeUserEvents_calls S hS events
  rw [sort_length_events S hS] at hch
  have hflat : (calls.map (Call.run (S.events events))).flatten = S.events events := by
    rw [hruns, runsOf_flatten]
  refine ⟨calls, hc, hm, hS.sessions_perm _, hsess, hch, hflat, hS.events_perm _, ?_⟩
  rw [← List.length_flatten, hflat, sort_length_events S hS]

/-- C1 at the demonstration input of `main`, sorted as `sort.Slice` sorts a
slice of 7 elements. -/
theorem runs_partition_events_witness :
    goSort.Lawful ∧
    ∃ calls, buildCalls (goSort.events mainEvents) ((goSort.events mainEvents).length + 1) 0 =
        some calls ∧
      mergeUserEvents goSort mainEvents = some (goSort.sessions (calls.map Call.session)) ∧
      (goSort.sessions (calls.map Call.session)).Perm (calls.map Call.session) ∧
      (∀ c ∈ calls, sessionOfRun (c.run (goSort.events mainEvents)) = some c.session) ∧
      chained 0 calls mainEvents.length ∧
      (calls.map (Call.run (goSort.events mainEvents))).flatten = goSort.events mainEvents ∧
      (goSort.events mainEvents).Perm mainEvents ∧
      ((calls.map (Call.run (goSort.events mainEvents))).map List.length).sum =
        mainEvents.length :=
  ⟨goSort_lawful, runs_partition_events goSort goSort_lawful mainEvents⟩

/-- C2 (the code at the failing input): with one user's events at the least
and the greatest `int64` timestamp, the subtraction of line 86 wraps to `-1`,
so `buildSession` takes both events into one run (one call, visiting indices
0 and 1) and `mergeUserEvents` returns one session, although the true
difference of the two timestamps exceeds 600. -/
theorem overflow_gap_merged :
    (∀ e ∈ overflowEvents, isInt64 e.TS) ∧
    goSort.events overflowEvents = overflowEvents ∧
    wrapInt64 (9223372036854775807 - (-9223372036854775808)) = -1 ∧
    buildCalls (goSort.events overflowEvents) 3 0 =
      some [⟨0, ⟨"u", -9223372036854775808, 9223372036854775807, ["a", "b"], .mk .nil⟩, 2⟩] ∧
    mergeUserEvents goSort overflowEvents =
      some [⟨"u", -9223372036854775808, 9223372036854775807, ["a", "b"], .mk .nil⟩] ∧
    ¬ ((9223372036854775807 : Int) - (-9223372036854775808) ≤ 600) := by
  decide

/-- C3: sessions are maximal.  For every user, between two runs that are
adjacent in that user's sequence of runs, the timestamp of the first event of
the latter exceeds the timestamp of the last event of the former by more
than 600, as integers. -/
theorem gap_between_runs (S : SliceSort) (hS : S.Lawful) (events : List Event) :
    ∃ calls, buildCalls (S.events events) ((S.events events).length + 1) 0 = some calls ∧
      mergeUserEvents S events = some (S.sessions (calls.map Call.session)) ∧
      ∀ u : String,
        ((calls.filter (fun c => decide (c.session.UserID = u))).map
            (Call.run (S.events events))).Chain'
          (fun r1 r2 => ∃ a b, r1.getLast? = some a ∧ r2.head? = some b ∧
            a.UserID = u ∧ b.UserID = u ∧ b.TS - a.TS > 600) := by
  obtain ⟨calls, hc, hm, hruns, hsess, _⟩ := mergeUserEvents_calls S hS events
  refine ⟨calls, hc, hm, ?_⟩
  intro u
  have hsorted := sorted_key S hS events
  have hb := runsOf_boundary (fun a b => eventKey a ≤ eventKey b) (S.events events) hsorted
  rw [← hruns, List.chain'_map] at hb
  rw [List.chain'_map]
  have hmemchain := (List.Chain'.iff_mem).1 hb
  have hfc := chain'_filter_key (fun c : Call => c.session.UserID.data)
    (fun c1 c2 => c1.session.UserID = u →
      ∃ a b, (c1.run (S.events events)).getLast? = some a ∧
        (c2.run (S.events events)).head? = some b ∧
        a.UserID = u ∧ b.UserID = u ∧ b.TS - a.TS > 600)
    u.data (fun c => decide (c.session.UserID = u))
    (by
      intro c
      simp only [decide_eq_true_eq]
      exact ⟨fun h => by rw [h], fun h => String.ext h⟩)
    calls (calls_sorted_by_user _ calls hsorted hruns hsess)
    (hmemchain.imp (by
      intro c1 c2 ⟨hc1, hc2, a, b, ha, hbh, hj, hk⟩ hkey hu
      obtain ⟨_, _, _, _, hall1⟩ := call_run_user _ calls hruns hsess c1 hc1
      obtain ⟨_, _, _, _, hall2⟩ := call_run_user _ calls hruns hsess c2 hc2
      have hau : a.UserID = u := by
        rw [hall1 a (List.mem_of_mem_getLast? ha), hu]
      have hbu : b.UserID = u := by
        rw [hall2 b (List.mem_of_mem_head? hbh), String.ext hkey.symm, hu]
      refine ⟨a, b, ha, hbh, hau, hbu, ?_⟩
      have hts : a.TS ≤ b.TS := eventKey_le_ts hk (by rw [hau, hbu])
      have hw : wrapInt64 (b.TS - a.TS) > sessionGapThreshold := by
        simpa [joins, hau, hbu] using hj
      exact gap_of_wrap _ (by omega) hw))
  refine ((List.Chain'.iff_mem).1 hfc).imp ?_
  intro c1 c2 ⟨hc1, _, h⟩
  exact h (by simpa using (List.mem_filter.1 hc1).2)

/-- C3 at the demonstration input of `main`. -/
theorem gap_between_runs_witness :
    goSort.Lawful ∧
    ∃ calls, buildCalls (goSort.events mainEvents) ((goSort.events mainEvents).length + 1) 0 =
        some calls ∧
      mergeUserEvents goSort mainEvents = some (goSort.sessions (calls.map Call.session)) ∧
      ∀ u : String,
        ((calls.filter (fun c => decide (c.session.UserID = u))).map
            (Call.run (goSort.events mainEvents))).Chain'
          (fun r1 r2 => ∃ a b, r1.getLast? = some a ∧ r2.head? = some b ∧
            a.UserID = u ∧ b.UserID = u ∧ b.TS - a.TS > 600) :=
  ⟨goSort_lawful, gap_between_runs goSort goSort_lawful mainEvents⟩

/-- C4: the threshold is inclusive.  Two events of one user at timestamps `t`
and `t + 600`, given in either order, yield exactly one session, spanning `t`
to `t + 600`; at timestamps `t` and `t + 601` they yield exactly two sessions,
`t..t` and then `t + 601..t + 601`. -/
theorem threshold_inclusive (S : SliceSort) (hS : S.Lawful) (u : String) (t : Int)
    (ty1 ty2 : String) (m1 m2 : GoMap) (events : List Event) :
    (events.Perm [⟨u, t, ty1, m1⟩, ⟨u, t + 600, ty2, m2⟩] →
      ∃ s, mergeUserEvents S events = some [s] ∧
        s.UserID = u ∧ s.StartTS = t ∧ s.EndTS = t + 600) ∧
    (events.Perm [⟨u, t, ty1, m1⟩, ⟨u, t + 601, ty2, m2⟩] →
      ∃ s1 s2, mergeUserEvents S events = some [s1, s2] ∧
        s1.UserID = u ∧ s1.StartTS = t ∧ s1.EndTS = t ∧
        s2.UserID = u ∧ s2.StartTS = t + 601 ∧ s2.EndTS = t + 601) := by
  have hw600 : wrapInt64 600 = 600 := by decide
  have hw601 : wrapInt64 601 = 601 := by decide
  constructor
  · intro hp
    have hsort := sort_events_of_strict S hS events _ hp
      (by
        simp only [List.pairwise_cons, List.mem_singleton, forall_eq, List.not_mem_nil,
          false_implies, implies_true, List.Pairwise.nil, and_true]
        exact eventKey_lt_of_ts rfl (by simp))
    rw [mergeUserEvents_runs S hS, hsort]
    have hruns : runsOf [(⟨u, t, ty1, m1⟩ : Event), ⟨u, t + 600, ty2, m2⟩] =
        [[⟨u, t, ty1, m1⟩, ⟨u, t + 600, ty2, m2⟩]] := by
      simp [runsOf, joins, hw600, sessionGapThreshold]
    rw [hruns]
    simp only [List.filterMap_cons, List.filterMap_nil]
    obtain ⟨hu, hs, b, hb, he⟩ := sessionOfRun_fields ⟨u, t, ty1, m1⟩ [⟨u, t + 600, ty2, m2⟩]
      _ rfl
    simp only [List.getLast?_cons_cons, List.getLast?_singleton, Option.some.injEq] at hb
    subst hb
    refine ⟨_, ?_, hu, hs, he⟩
    have h1 := hS.sessions_perm
      [(List.foldl stepSession (firstSession u ⟨u, t, ty1, m1⟩) [⟨u, t + 600, ty2, m2⟩]).1]
    rw [List.perm_singleton] at h1
    simp only [sessionOfRun]
    rw [h1]
  · intro hp
    have hsort := sort_events_of_strict S hS events _ hp
      (by
        simp only [List.pairwise_cons, List.mem_singleton, forall_eq, List.not_mem_nil,
          false_implies, implies_true, List.Pairwise.nil, and_true]
        exact eventKey_lt_of_ts rfl (by simp))
    rw [mergeUserEvents_runs S hS, hsort]
    have hruns : runsOf [(⟨u, t, ty1, m1⟩ : Event), ⟨u, t + 601, ty2, m2⟩] =
        [[⟨u, t, ty1, m1⟩], [⟨u, t + 601, ty2, m2⟩]] := by
      simp [runsOf, joins, hw601, sessionGapThreshold]
    rw [hruns]
    simp only [List.filterMap_cons, List.filterMap_nil, sessionOfRun, List.foldl_nil]
    refine ⟨(firstSession u ⟨u, t, ty1, m1⟩).1, (firstSession u ⟨u, t + 601, ty2, m2⟩).1,
      ?_, rfl, rfl, rfl, rfl, rfl, rfl⟩
    rw [sort_sessions_of_strict S hS]
    simp [firstSession]

/-- C4 with `sort.Slice` as it runs on two elements, user `"u1"` and `t = 1000`. -/
theorem threshold_inclusive_witness :
    goSort.Lawful ∧
    (([⟨"u1", 1000 + 600, "b", .nil⟩, ⟨"u1", 1000, "a", .nil⟩] : List Event).Perm
        [⟨"u1", 1000, "a", .nil⟩, ⟨"u1", 1000 + 600, "b", .nil⟩] ∧
      ∃ s, mergeUserEvents goSort [⟨"u1", 1000 + 600, "b", .nil⟩, ⟨"u1", 1000, "a", .nil⟩] =
          some [s] ∧
        s.UserID = "u1" ∧ s.StartTS = 1000 ∧ s.EndTS = 1000 + 600) ∧
    (([⟨"u1", 1000, "a", .nil⟩, ⟨"u1", 1000 + 601, "b", .nil⟩] : List Event).Perm
        [⟨"u1", 1000, "a", .nil⟩, ⟨"u1", 1000 + 601, "b", .nil⟩] ∧
      ∃ s1 s2, mergeUserEvents goSort [⟨"u1", 1000, "a", .nil⟩, ⟨"u1", 1000 + 601, "b", .nil⟩] =
          some [s1, s2] ∧
        s1.UserID = "u1" ∧ s1.StartTS = 1000 ∧ s1.EndTS = 1000 ∧
        s2.UserID = "u1" ∧ s2.StartTS = 1000 + 601 ∧ s2.EndTS = 1000 + 601) :=
  ⟨goSort_lawful,
    ⟨List.Perm.swap _ _ _,
      (threshold_inclusive goSort goSort_lawful "u1" 1000 "a" "b" .nil .nil _).1
        (List.Perm.swap _ _ _)⟩,
    ⟨List.Perm.refl _,
      (threshold_inclusive goSort goSort_lawful "u1" 1000 "a" "b" .nil .nil _).2
        (List.Perm.refl _)⟩⟩

/-- C5: a key present in both maps, with at least one of the two values not a
map, keeps exactly the value the accumulator had: whenever `mergeMaps`
returns, and it does return on every allocated accumulator. -/
theorem conflict_keeps_accumulator (dst src : GoMap) (k : String) (dv sv : Value)
    (hnd : src.keys.Nodup) (hd : dst.lookup k = some dv) (hs : src.lookup k = some sv)
    (h : dv.isMap = false ∨ sv.isMap = false) :
    (∀ r, mergeMaps dst src = some r → r.lookup k = some dv) ∧
    (dst.allocated = true → ∃ r, mergeMaps dst src = some r ∧ r.lookup k = some dv) := by
  have key : ∀ r, mergeMaps dst src = some r → r.lookup k = some dv := by
    intro r hr
    rw [mergeMaps_lookup k dst src r hnd hr, hd, hs]
    cases dv with
    | scalar a => rfl
    | map dm =>
      cases sv with
      | scalar b => rfl
      | map sm => simp [Value.isMap] at h
  refine ⟨key, ?_⟩
  intro ha
  obtain ⟨r, hr, _⟩ := mergeMaps_allocated src dst ha
  exact ⟨r, hr, key r hr⟩

/-- C5 on the examples `{"a":1}` then `{"a":2}`, and `{"a":{"x":1}}` then `{"a":5}`. -/
theorem conflict_keeps_accumulator_witness :
    mergeMaps (mapA 1) (mapA 2) = some (mapA 1) ∧
    mergeMaps (mapANested "x" 1) (mapA 5) = some (mapANested "x" 1) ∧
    (∃ r, mergeMaps (mapA 1) (mapA 2) = some r ∧ r.lookup "a" = some (.scalar (.num 1))) ∧
    (∃ r, mergeMaps (mapANested "x" 1) (mapA 5) = some r ∧
      r.lookup "a" = some (.map (.mk (.cons "x" (.scalar (.num 1)) .nil)))) :=
  ⟨by decide, by decide,
    (conflict_keeps_accumulator (mapA 1) (mapA 2) "a" (.scalar (.num 1)) (.scalar (.num 2))
      (by decide) (by decide) (by decide) (by decide)).2 (by decide),
    (conflict_keeps_accumulator (mapANested "x" 1) (mapA 5) "a"
      (.map (.mk (.cons "x" (.scalar (.num 1)) .nil))) (.scalar (.num 5))
      (by decide) (by decide) (by decide) (by decide)).2 (by decide)⟩

/-- C6: a key present in both maps with a map on both sides holds, after
`mergeMaps`, the result of `mergeMaps` on the two nested maps: whenever the
call returns, and it does return on every allocated accumulator. -/
theorem nested_maps_merged (dst src : GoMap) (k : String) (dm sm : GoMap)
    (hnd : src.keys.Nodup) (hd : dst.lookup k = some (.map dm))
    (hs : src.lookup k = some (.map sm)) :
    (∀ r, mergeMaps dst src = some r →
      ∃ m, mergeMaps dm sm = some m ∧ r.lookup k = some (.map m)) ∧
    (dst.allocated = true →
      ∃ r m, mergeMaps dst src = some r ∧ mergeMaps dm sm = some m ∧
        r.lookup k = some (.map m)) := by
  have key : ∀ r, mergeMaps dst src = some r →
      ∃ m, mergeMaps dm sm = some m ∧ r.lookup k = some (.map m) := by
    intro r hr
    have hl := mergeMaps_lookup k dst src r hnd hr
    have hk := mergeMaps_keeps k dst src r hr (by simp [hd])
    rw [hd, hs] at hl
    simp only [mergedAt] at hl
    cases hm : mergeMaps dm sm with
    | none => simp [hl, hm] at hk
    | some m => exact ⟨m, rfl, by simp [hl, hm]⟩
  refine ⟨key, ?_⟩
  intro ha
  obtain ⟨r, hr, _⟩ := mergeMaps_allocated src dst ha
  obtain ⟨m, hm, hl⟩ := key r hr
  exact ⟨r, m, hr, hm, hl⟩

/-- C6 on the example `{"a":{"x":1}}` then `{"a":{"y":2}}`, which yields
`{"a":{"x":1,"y":2}}`. -/
theorem nested_maps_merged_witness :
    mergeMaps (mapANested "x" 1) (mapANested "y" 2) =
      some (.mk (.cons "a" (.map (.mk (.cons "x" (.scalar (.num 1))
        (.cons "y" (.scalar (.num 2)) .nil)))) .nil)) ∧
    ∃ r m, mergeMaps (mapANested "x" 1) (mapANested "y" 2) = some r ∧
      mergeMaps (.mk (.cons "x" (.scalar (.num 1)) .nil))
        (.mk (.cons "y" (.scalar (.num 2)) .nil)) = some m ∧
      r.lookup "a" = some (.map m) :=
  ⟨by decide,
    (nested_maps_merged (mapANested "x" 1) (mapANested "y" 2) "a"
      (.mk (.cons "x" (.scalar (.num 1)) .nil)) (.mk (.cons "y" (.scalar (.num 2)) .nil))
      (by decide) (by decide) (by decide)).2 (by decide)⟩

/-- C7 as stated fails: merging `{"a": m}`, where `m` is the nil map, into the
empty accumulator stores an allocated empty map under `"a"`, not the nil map
that the source holds. -/
theorem nil_map_cloned_as_empty :
    (GoMap.mk .nil).allocated = true ∧ mapANil.keys.Nodup ∧
    (GoMap.mk .nil).lookup "a" = none ∧
    mapANil.lookup "a" = some (.map .nil) ∧
    mergeMaps (.mk .nil) mapANil = some (.mk (.cons "a" (.map (.mk .nil)) .nil)) ∧
    ¬ ∀ r, mergeMaps (.mk .nil) mapANil = some r → r.lookup "a" = mapANil.lookup "a" := by
  refine ⟨by decide, by decide, by decide, by decide, by decide, ?_⟩
  intro h
  have := h _ (by decide : mergeMaps (.mk .nil) mapANil = some (.mk (.cons "a" (.map (.mk .nil)) .nil)))
  revert this
  decide

/-- C7, amended: a key of the source that the accumulator lacks is present
after `mergeMaps`, holding the copy `cloneMap` makes of the source value.  The
copy has the same entries as the source value at every depth, holds no nil map,
and is equal to the source value when that holds no nil map; the keys of the
result are those of the accumulator and those of the source. -/
theorem new_key_cloned (dst src : GoMap) (k : String) (sv : Value)
    (hnd : src.keys.Nodup) (hd : dst.lookup k = none) (hs : src.lookup k = some sv) :
    (∀ r, mergeMaps dst src = some r →
      r.lookup k = some (cloneValue sv) ∧
      ∀ k1, k1 ∈ r.keys ↔ k1 ∈ dst.keys ∨ k1 ∈ src.keys) ∧
    Value.same (cloneValue sv) sv = true ∧
    (cloneValue sv).allocated = true ∧
    (sv.allocated = true → cloneValue sv = sv) ∧
    (dst.allocated = true → ∃ r, mergeMaps dst src = some r) := by
  refine ⟨?_, cloneValue_same sv, cloneValue_allocated sv, cloneValue_of_allocated sv, ?_⟩
  · intro r hr
    refine ⟨?_, mergeMaps_keys dst src r hnd hr⟩
    rw [mergeMaps_lookup k dst src r hnd hr, hd, hs]
    rfl
  · intro ha
    obtain ⟨r, hr, _⟩ := mergeMaps_allocated src dst ha
    exact ⟨r, hr⟩

/-- C7, amended, on the accumulator `{"a":1}` and the source
`{"b": {"page": "/"}}`. -/
theorem new_key_cloned_witness :
    (∀ r, mergeMaps (mapA 1) (.mk (.cons "b" (.map (strMeta "page" "/")) .nil)) = some r →
      r.lookup "b" = some (cloneValue (.map (strMeta "page" "/"))) ∧
      ∀ k1, k1 ∈ r.keys ↔
        k1 ∈ (mapA 1).keys ∨ k1 ∈ (GoMap.mk (.cons "b" (.map (strMeta "page" "/")) .nil)).keys) ∧
    cloneValue (.map (strMeta "page" "/")) = .map (strMeta "page" "/") ∧
    ∃ r, mergeMaps (mapA 1) (.mk (.cons "b" (.map (strMeta "page" "/")) .nil)) = some r :=
  ⟨(new_key_cloned (mapA 1) (.mk (.cons "b" (.map (strMeta "page" "/")) .nil)) "b"
      (.map (strMeta "page" "/")) (by decide) (by decide) (by decide)).1,
    (new_key_cloned (mapA 1) (.mk (.cons "b" (.map (strMeta "page" "/")) .nil)) "b"
      (.map (strMeta "page" "/")) (by decide) (by decide) (by decide)).2.2.2.1 (by decide),
    (new_key_cloned (mapA 1) (.mk (.cons "b" (.map (strMeta "page" "/")) .nil)) "b"
      (.map (strMeta "page" "/")) (by decide) (by decide) (by decide)).2.2.2.2 (by decide)⟩

/-- C8 as stated fails: two events of one user at one timestamp are left by
`sort.Slice` in the order of the input, so of two conflicting values the one
supplied first is kept; the input and its reversal give sessions with
different metadata. -/
theorem tie_order_decides_meta :
    tieEvents.reverse.Perm tieEvents ∧
    mergeUserEvents goSort tieEvents = some [⟨"u", 0, 0, ["t"], mapA 1⟩] ∧
    mergeUserEvents goSort tieEvents.reverse = some [⟨"u", 0, 0, ["t"], mapA 2⟩] ∧
    ¬ (List.map Session.Meta <$> mergeUserEvents goSort tieEvents.reverse =
        List.map Session.Meta <$> mergeUserEvents goSort tieEvents) := by
  refine ⟨List.reverse_perm _, by decide, by decide, by decide⟩

/-- C8, amended: when no two events of one user share a timestamp, the
result of `mergeUserEvents`, metadata included, is the same for every order
in which the events are supplied. -/
theorem merge_order_independent (S : SliceSort) (hS : S.Lawful) (events events1 : List Event)
    (hp : events1.Perm events)
    (hd : events.Pairwise (fun a b => a.UserID = b.UserID → a.TS ≠ b.TS)) :
    S.events events1 = S.events events ∧
    mergeUserEvents S events1 = mergeUserEvents S events := by
  have hd1 : (S.events events).Pairwise (fun a b => a.UserID = b.UserID → a.TS ≠ b.TS) :=
    ((hS.events_perm events).pairwise_iff (by
      intro a b h hu e
      exact h hu.symm e.symm)).2 hd
  have hstrict : (S.events events).Pairwise (fun a b => eventKey a < eventKey b) := by
    refine ((sorted_key S hS events).and hd1).imp ?_
    intro a b ⟨hle, hne⟩
    refine lt_of_le_of_ne hle ?_
    intro hk
    unfold eventKey at hk
    have hk2 : (a.UserID.data, a.TS) = (b.UserID.data, b.TS) := toLex.injective hk
    simp only [Prod.mk.injEq] at hk2
    exact hne (String.ext hk2.1) hk2.2
  have hsort : S.events events1 = S.events events :=
    sort_events_of_strict S hS events1 _ (hp.trans (hS.events_perm events).symm) hstrict
  refine ⟨hsort, ?_⟩
  rw [mergeUserEvents_runs S hS, mergeUserEvents_runs S hS, hsort]

/-- C8, amended, on the demonstration input of `main` and its reversal. -/
theorem merge_order_independent_witness :
    goSort.Lawful ∧ mainEvents.reverse.Perm mainEvents ∧
    mainEvents.Pairwise (fun a b => a.UserID = b.UserID → a.TS ≠ b.TS) ∧
    goSort.events mainEvents.reverse = goSort.events mainEvents ∧
    mergeUserEvents goSort mainEvents.reverse = mergeUserEvents goSort mainEvents :=
  ⟨goSort_lawful, List.reverse_perm _, by decide,
    merge_order_independent goSort goSort_lawful mainEvents mainEvents.reverse
      (List.reverse_perm _) (by decide)⟩

/-- C9: for every session `mergeUserEvents` produces, `StartTS` is the
timestamp of the first event of its run and at most every timestamp of the
run, `EndTS` is the timestamp of the last event of its run and at least every
timestamp of the run, `StartTS <= EndTS`, and the two are equal for a run of
one event. -/
theorem session_span (S : SliceSort) (hS : S.Lawful) (events : List Event) :
    ∃ calls, buildCalls (S.events events) ((S.events events).length + 1) 0 = some calls ∧
      mergeUserEvents S events = some (S.sessions (calls.map Call.session)) ∧
      ∀ c ∈ calls, ∃ a b,
        (c.run (S.events events)).head? = some a ∧
        (c.run (S.events events)).getLast? = some b ∧
        c.session.StartTS = a.TS ∧ c.session.EndTS = b.TS ∧
        (∀ e ∈ c.run (S.events events), c.session.StartTS ≤ e.TS ∧ e.TS ≤ c.session.EndTS) ∧
        c.session.StartTS ≤ c.session.EndTS ∧
        ((c.run (S.events events)).length = 1 → c.session.StartTS = c.session.EndTS) := by
  obtain ⟨calls, hc, hm, hruns, hsess, _⟩ := mergeUserEvents_calls S hS events
  refine ⟨calls, hc, hm, ?_⟩
  intro c hcm
  have hsorted := sorted_key S hS events
  have hflat : ((calls.map (Call.run (S.events events))).flatten).Pairwise
      (fun a b => eventKey a ≤ eventKey b) := by
    rw [hruns, runsOf_flatten]; exact hsorted
  have hrunsorted := (List.pairwise_flatten.1 hflat).1 (c.run (S.events events))
    (List.mem_map_of_mem _ hcm)
  obtain ⟨e, tail, hr, hu, hall⟩ := call_run_user _ calls hruns hsess c hcm
  have hs := hsess c hcm
  rw [hr] at hs hrunsorted
  obtain ⟨_, hstart, b, hb, hend⟩ := sessionOfRun_fields e tail c.session hs
  have hlast := pairwise_getLast _ _ b hrunsorted hb
  have hsame : ∀ x ∈ e :: tail, ∀ y ∈ e :: tail, x.UserID = y.UserID := by
    intro x hx y hy
    rw [hall x (by rw [hr]; exact hx), hall y (by rw [hr]; exact hy)]
  have hbm : b ∈ e :: tail := List.mem_of_mem_getLast? hb
  have hbound : ∀ x ∈ e :: tail, c.session.StartTS ≤ x.TS ∧ x.TS ≤ c.session.EndTS := by
    intro x hx
    rw [hstart, hend]
    constructor
    · rcases List.mem_cons.1 hx with h | h
      · rw [h]
      · exact eventKey_le_ts ((List.pairwise_cons.1 hrunsorted).1 x h)
          (hsame e (List.mem_cons_self _ _) x hx)
    · rcases hlast x hx with h | h
      · rw [h]
      · exact eventKey_le_ts h (hsame x hx b hbm)
  refine ⟨e, b, by rw [hr]; rfl, by rw [hr]; exact hb, hstart, hend, ?_, ?_, ?_⟩
  · rw [hr]; exact hbound
  · have := hbound b hbm
    rw [hend]
    exact (hend ▸ this).1
  · rw [hr]
    intro hlen
    have ht : tail = [] := by
      cases tail with
      | nil => rfl
      | cons x t => simp at hlen
    subst ht
    simp only [List.getLast?_singleton, Option.some.injEq] at hb
    rw [hstart, hend, hb]

/-- C9 at the demonstration input of `main`. -/
theorem session_span_witness :
    goSort.Lawful ∧
    ∃ calls, buildCalls (goSort.events mainEvents) ((goSort.events mainEvents).length + 1) 0 =
        some calls ∧
      mergeUserEvents goSort mainEvents = some (goSort.sessions (calls.map Call.session)) ∧
      ∀ c ∈ calls, ∃ a b,
        (c.run (goSort.events mainEvents)).head? = some a ∧
        (c.run (goSort.events mainEvents)).getLast? = some b ∧
        c.session.StartTS = a.TS ∧ c.session.EndTS = b.TS ∧
        (∀ e ∈ c.run (goSort.events mainEvents),
          c.session.StartTS ≤ e.TS ∧ e.TS ≤ c.session.EndTS) ∧
        c.session.StartTS ≤ c.session.EndTS ∧
        ((c.run (goSort.events mainEvents)).length = 1 →
          c.session.StartTS = c.session.EndTS) :=
  ⟨goSort_lawful, session_span goSort goSort_lawful mainEvents⟩

/-- C10: for every list of events and every index `i` of it, `buildSession`
started at `i` returns, having visited the slice `events[i:j]` with
`i < j <= len(events)`, and the `Types` of its session are the types of that
slice with consecutive duplicates collapsed: a type is kept iff it is the first
of the run or differs from the type of the event immediately before it. -/
theorem types_collapsed (events : List Event) (i : Nat) (e : Event)
    (h : events[i]? = some e) :
    ∃ s j, buildSession events i e.UserID = some (s, j) ∧ i < j ∧ j ≤ events.length ∧
      s.Types = collapseTypes (((events.drop i).take (j - i)).map Event.Type_) := by
  obtain ⟨hsplit, hlen⟩ := split_at_index events i e h
  have hb := buildSession_eq events (events.take i) (events.drop (i + 1)) e hsplit
  rw [hlen] at hb
  have hparts := runTail_append_drop e (events.drop (i + 1))
  have hle := runTail_length_le e (events.drop (i + 1))
  have hlen2 : events.length = i + 1 + (events.drop (i + 1)).length := by
    have := congrArg List.length hsplit
    rw [List.length_append, hlen, List.length_cons] at this
    omega
  refine ⟨_, _, hb, by omega, by omega, ?_⟩
  have hrun : (events.drop i).take (i + 1 + (runTail e (events.drop (i + 1))).length - i) =
      e :: runTail e (events.drop (i + 1)) := by
    have h3 : events = events.take i ++
        ((e :: runTail e (events.drop (i + 1))) ++
          (events.drop (i + 1)).drop (runTail e (events.drop (i + 1))).length) := by
      rw [List.cons_append, hparts]; exact hsplit
    have h4 := drop_take_mid (events.take i) (e :: runTail e (events.drop (i + 1)))
      ((events.drop (i + 1)).drop (runTail e (events.drop (i + 1))).length)
      (i + 1 + (runTail e (events.drop (i + 1))).length)
      (by rw [hlen, List.length_cons]; omega)
    rw [← h3, hlen] at h4
    exact h4
  rw [hrun]
  exact sessionOfRun_types e _ _ rfl

/-- C10 on a run with the types click, click, scroll, click, which yield
click, scroll, click and not click, scroll. -/
theorem types_collapsed_witness :
    clickEvents[0]? = some ⟨"u1", 10, "click", .nil⟩ ∧
    (∃ s j, buildSession clickEvents 0 "u1" = some (s, j) ∧ 0 < j ∧ j ≤ clickEvents.length ∧
      s.Types = collapseTypes (((clickEvents.drop 0).take (j - 0)).map Event.Type_)) ∧
    buildSession clickEvents 0 "u1" =
      some (⟨"u1", 10, 40, ["click", "scroll", "click"], .mk .nil⟩, 4) ∧
    collapseTypes ["click", "click", "scroll", "click"] = ["click", "scroll", "click"] :=
  ⟨by decide, types_collapsed clickEvents 0 ⟨"u1", 10, "click", .nil⟩ (by decide),
    by decide, by decide⟩

theorem keepChanged_chain : ∀ (l : List String) (prev : Option String),
    (keepChanged prev l).Chain' (fun x y => x ≠ y) ∧
      ∀ x ∈ (keepChanged prev l).head?, prev ≠ some x
  | [], prev => by simp [keepChanged]
  | t :: rest, prev => by
    obtain ⟨hc, hh⟩ := keepChanged_chain rest (some t)
    unfold keepChanged
    split
    · rename_i hp
      refine ⟨hc, ?_⟩
      intro x hx
      rw [hp]
      exact hh x hx
    · rename_i hp
      refine ⟨?_, ?_⟩
      · rw [List.chain'_cons']
        refine ⟨?_, hc⟩
        intro y hy e
        exact hh y hy (by rw [e])
      · intro x hx
        simp only [List.head?_cons, Option.mem_def, Option.some.injEq] at hx
        rw [← hx]
        exact hp

/-- C11: for every session `mergeUserEvents` produces, `Types` is not empty,
holds no two identical adjacent entries, and starts with the type of the first
event of the session's run. -/
theorem types_no_repeat (S : SliceSort) (hS : S.Lawful) (events : List Event) :
    ∃ calls, buildCalls (S.events events) ((S.events events).length + 1) 0 = some calls ∧
      mergeUserEvents S events = some (S.sessions (calls.map Call.session)) ∧
      ∀ c ∈ calls,
        c.session.Types ≠ [] ∧
        c.session.Types.Chain' (fun x y => x ≠ y) ∧
        ∃ a, (c.run (S.events events)).head? = some a ∧
          c.session.Types.head? = some a.Type_ := by
  obtain ⟨calls, hc, hm, hruns, hsess, _⟩ := mergeUserEvents_calls S hS events
  refine ⟨calls, hc, hm, ?_⟩
  intro c hcm
  obtain ⟨e, tail, hr, _, _⟩ := call_run_user _ calls hruns hsess c hcm
  have hs := hsess c hcm
  rw [hr] at hs
  have ht := sessionOfRun_types e tail c.session hs
  have hhead : c.session.Types =
      e.Type_ :: keepChanged (some e.Type_) (tail.map Event.Type_) := by
    rw [ht]
    simp [collapseTypes, keepChanged]
  refine ⟨by rw [hhead]; simp, ?_, e, by rw [hr]; rfl, by rw [hhead]; rfl⟩
  rw [ht]
  exact (keepChanged_chain _ none).1

/-- C11 at the demonstration input of `main`. -/
theorem types_no_repeat_witness :
    goSort.Lawful ∧
    ∃ calls, buildCalls (goSort.events mainEvents) ((goSort.events mainEvents).length + 1) 0 =
        some calls ∧
      mergeUserEvents goSort mainEvents = some (goSort.sessions (calls.map Call.session)) ∧
      ∀ c ∈ calls,
        c.session.Types ≠ [] ∧
        c.session.Types.Chain' (fun x y => x ≠ y) ∧
        ∃ a, (c.run (goSort.events mainEvents)).head? = some a ∧
          c.session.Types.head? = some a.Type_ :=
  ⟨goSort_lawful, types_no_repeat goSort goSort_lawful mainEvents⟩

/-- C12: on the demonstration input of `main`, `mergeUserEvents` returns
exactly two sessions, in this order: `u1` from 1000 to 2200 with the types
click, scroll, click, then `u2` from 1200 to 1300 with the type view;
whatever order `sort.Slice` gives to equal elements. -/
theorem main_sessions (S : SliceSort) (hS : S.Lawful) :
    mergeUserEvents S mainEvents =
      some [ ⟨"u1", 1000, 2200, ["click", "scroll", "click"],
               .mk (.cons "page" (.scalar (.str "/"))
                 (.cons "depth" (.scalar (.num 100)) .nil))⟩,
             ⟨"u2", 1200, 1300, ["view"], strMeta "item" "A"⟩ ] := by
  have hstrict : mainEvents.Pairwise (fun a b => eventKey a < eventKey b) := by
    have h : mainEvents.Pairwise (fun a b => eventLess a b = true) := by decide
    exact h.imp (fun h => (eventLess_iff _ _).1 h)
  have hsort := sort_events_of_strict S hS mainEvents mainEvents (List.Perm.refl _) hstrict
  rw [mergeUserEvents_runs S hS, hsort]
  have hruns : (runsOf mainEvents).filterMap sessionOfRun =
      [ ⟨"u1", 1000, 2200, ["click", "scroll", "click"],
          .mk (.cons "page" (.scalar (.str "/"))
            (.cons "depth" (.scalar (.num 100)) .nil))⟩,
        ⟨"u2", 1200, 1300, ["view"], strMeta "item" "A"⟩ ] := by decide
  rw [hruns, sort_sessions_of_strict S hS _ (by decide)]

/-- C12 with `sort.Slice` as it runs on 7 and on 2 elements. -/
theorem main_sessions_witness :
    goSort.Lawful ∧
    mergeUserEvents goSort mainEvents =
      some [ ⟨"u1", 1000, 2200, ["click", "scroll", "click"],
               .mk (.cons "page" (.scalar (.str "/"))
                 (.cons "depth" (.scalar (.num 100)) .nil))⟩,
             ⟨"u2", 1200, 1300, ["view"], strMeta "item" "A"⟩ ] :=
  ⟨goSort_lawful, main_sessions goSort goSort_lawful⟩

/-- C13: the list `mergeUserEvents` returns is in non-decreasing order of
`StartTS`, across all users. -/
theorem result_sorted_by_start (S : SliceSort) (hS : S.Lawful) (events : List Event) :
    ∃ out, mergeUserEvents S events = some out ∧
      out.Pairwise (fun a b => a.StartTS ≤ b.StartTS) := by
  refine ⟨_, mergeUserEvents_runs S hS events, ?_⟩
  exact (hS.sessions_sorted _).imp (fun h => (sessionLess_eq_false_iff _ _).1 h)

/-- C13 at the demonstration input of `main`. -/
theorem result_sorted_by_start_witness :
    goSort.Lawful ∧
    ∃ out, mergeUserEvents goSort mainEvents = some out ∧
      out.Pairwise (fun a b => a.StartTS ≤ b.StartTS) :=
  ⟨goSort_lawful, result_sorted_by_start goSort goSort_lawful mainEvents⟩

/-- C14: for every user, the sessions built for that user are disjoint in
time and strictly ordered: each ends before every later one starts (by more
than 600), so their `StartTS` are strictly increasing; and in the list
`mergeUserEvents` returns, sorted by `StartTS`, the sessions of the user stand
in the order in which they were built. -/
theorem user_sessions_ordered (S : SliceSort) (hS : S.Lawful) (events : List Event) :
    ∃ calls out, buildCalls (S.events events) ((S.events events).length + 1) 0 = some calls ∧
      mergeUserEvents S events = some out ∧
      out = S.sessions (calls.map Call.session) ∧
      ∀ u : String,
        ((calls.map Call.session).filter (fun s => decide (s.UserID = u))).Pairwise
          (fun s1 s2 => s1.EndTS < s2.StartTS ∧ s1.StartTS < s2.StartTS) ∧
        out.filter (fun s => decide (s.UserID = u)) =
          (calls.map Call.session).filter (fun s => decide (s.UserID = u)) := by
  obtain ⟨calls, hc, hm, hruns, hsess, _⟩ := mergeUserEvents_calls S hS events
  refine ⟨calls, _, hc, hm, rfl, ?_⟩
  intro u
  have hst := user_sessions_strict _ calls (sorted_key S hS events) hruns hsess u
  refine ⟨hst.imp (fun h => ⟨by omega, h.2⟩), ?_⟩
  exact sort_keeps_user_order S hS _ u (hst.imp (fun h => h.2))

/-- C14 on an input in which one user has two sessions. -/
theorem user_sessions_ordered_witness :
    goSort.Lawful ∧
    ∃ calls out,
      buildCalls (goSort.events gapEvents) ((goSort.events gapEvents).length + 1) 0 =
        some calls ∧
      mergeUserEvents goSort gapEvents = some out ∧
      out = goSort.sessions (calls.map Call.session) ∧
      ∀ u : String,
        ((calls.map Call.session).filter (fun s => decide (s.UserID = u))).Pairwise
          (fun s1 s2 => s1.EndTS < s2.StartTS ∧ s1.StartTS < s2.StartTS) ∧
        out.filter (fun s => decide (s.UserID = u)) =
          (calls.map Call.session).filter (fun s => decide (s.UserID = u)) :=
  ⟨goSort_lawful, user_sessions_ordered goSort goSort_lawful gapEvents⟩

/-- C15: on the empty list `mergeUserEvents` returns an allocated slice with
no element, for which `json.MarshalIndent` gives `[]`; and on every list of
events `mergeUserEvents` returns a list of sessions: no index read is out of
range, no loop runs out of fuel and no assignment goes into a nil map. -/
theorem empty_input_and_totality (S : SliceSort) :
    mergeUserEvents S [] = some [] ∧
    mergeUserEventsValue S [] = some (.alloc []) ∧
    (∀ elems : List Session → String,
      (mergeUserEventsValue S []).map (marshalSlice elems) = some "[]") ∧
    (∀ events : List Event, ∃ out, mergeUserEvents S events = some out) ∧
    (∀ events : List Event, ∃ out, mergeUserEventsValue S events = some (.alloc out)) := by
  have htotal : ∀ events : List Event, ∃ out, mergeUserEvents S events = some out := by
    intro events
    unfold mergeUserEvents
    by_cases h0 : events.length = 0
    · exact ⟨[], by simp [h0]⟩
    · have h := mergeUserLoop_spec (S.events events) (S.events events).length
        (S.events events) [] ((S.events events).length + 1) [] (le_refl _) (by simp)
        (by omega)
      simp only [List.length_nil, List.nil_append] at h
      exact ⟨S.sessions ((runsOf (S.events events)).filterMap sessionOfRun),
        by simp only [h0, if_false, h]⟩
  refine ⟨rfl, rfl, fun _ => rfl, htotal, ?_⟩
  intro events
  obtain ⟨out, h⟩ := htotal events
  exact ⟨out, by simp [mergeUserEventsValue, h]⟩

theorem foldl_stepSession_allocated :
    ∀ (tail : List Event) (st : Session × String), st.1.Meta.allocated = true →
      (tail.foldl stepSession st).1.Meta.allocated = true
  | [], _, h => h
  | e :: tail, st, h => by
    rw [List.foldl_cons]
    exact foldl_stepSession_allocated tail _ (stepSession_allocated st e h)

theorem allocated_ne_nil (m : GoMap) (h : m.allocated = true) : m ≠ .nil := by
  intro e
  rw [e] at h
  simp [GoMap.allocated] at h

/-- C16 as stated fails: for a run of one event whose metadata hold a nil map
under a key, the session's `Meta` holds an allocated empty map under that key,
so it is not structurally equal to the event's metadata. -/
theorem nested_nil_meta_not_equal :
    mergeUserEvents goSort nilNestedEvents =
      some [⟨"u", 0, 0, ["t"], .mk (.cons "a" (.map (.mk .nil)) .nil)⟩] ∧
    ¬ (∀ s ∈ (mergeUserEvents goSort nilNestedEvents).getD [],
        ∀ e ∈ nilNestedEvents, s.Meta = e.Meta) := by
  decide

/-- C16, amended: every session's `Meta` is an allocated map, with no nil map
inside.  `cloneMap` of the nil map is the empty map, so a run whose first
event has nil metadata starts from the empty map; merging nil metadata leaves
the accumulator as it is; and for a run of one event the session's `Meta` is
the copy `cloneMap` makes of the event's metadata: the same entries at every
depth, equal to the event's metadata when these hold no nil map, and the empty
map when they are nil. -/
theorem session_meta_allocated (S : SliceSort) (hS : S.Lawful) (events : List Event) :
    (∃ calls, buildCalls (S.events events) ((S.events events).length + 1) 0 = some calls ∧
      mergeUserEvents S events = some (S.sessions (calls.map Call.session)) ∧
      ∀ c ∈ calls,
        c.session.Meta.allocated = true ∧ c.session.Meta ≠ .nil ∧
        ∀ e, c.run (S.events events) = [e] →
          c.session.Meta = cloneMap e.Meta ∧
          GoMap.same c.session.Meta e.Meta = true ∧
          (e.Meta.allocated = true → c.session.Meta = e.Meta) ∧
          (e.Meta = .nil → c.session.Meta = .mk .nil)) ∧
    cloneMap .nil = .mk .nil ∧
    (∀ (u : String) (e : Event), e.Meta = .nil → (firstSession u e).1.Meta = .mk .nil) ∧
    (∀ dst : GoMap, mergeMaps dst .nil = some dst) := by
  refine ⟨?_, rfl, ?_, fun dst => rfl⟩
  · obtain ⟨calls, hc, hm, hruns, hsess, _⟩ := mergeUserEvents_calls S hS events
    refine ⟨calls, hc, hm, ?_⟩
    intro c hcm
    obtain ⟨e, tail, hr, _, _⟩ := call_run_user _ calls hruns hsess c hcm
    have hs := hsess c hcm
    have halloc : c.session.Meta.allocated = true := by
      rw [hr] at hs
      simp only [sessionOfRun, Option.some.injEq] at hs
      rw [← hs]
      exact foldl_stepSession_allocated tail _
        (by simpa [firstSession] using cloneMap_allocated e.Meta)
    refine ⟨halloc, allocated_ne_nil _ halloc, ?_⟩
    intro e1 hr1
    rw [hr1] at hs
    simp only [sessionOfRun, List.foldl_nil, firstSession, Option.some.injEq] at hs
    have hmeta : c.session.Meta = cloneMap e1.Meta := by rw [← hs]
    refine ⟨hmeta, ?_, ?_, ?_⟩
    · rw [hmeta]; exact cloneMap_same e1.Meta
    · intro ha
      rw [hmeta, cloneMap_of_allocated _ ha]
    · intro hn
      rw [hmeta, hn]
      rfl
  · intro u e hn
    simp [firstSession, hn, cloneMap]

/-- C16, amended, on an input with two runs of one event. -/
theorem session_meta_allocated_witness :
    goSort.Lawful ∧
    (∃ calls, buildCalls (goSort.events gapEvents) ((goSort.events gapEvents).length + 1) 0 =
        some calls ∧
      mergeUserEvents goSort gapEvents = some (goSort.sessions (calls.map Call.session)) ∧
      ∀ c ∈ calls,
        c.session.Meta.allocated = true ∧ c.session.Meta ≠ .nil ∧
        ∀ e, c.run (goSort.events gapEvents) = [e] →
          c.session.Meta = cloneMap e.Meta ∧
          GoMap.same c.session.Meta e.Meta = true ∧
          (e.Meta.allocated = true → c.session.Meta = e.Meta) ∧
          (e.Meta = .nil → c.session.Meta = .mk .nil)) ∧
    cloneMap .nil = .mk .nil ∧
    (∀ (u : String) (e : Event), e.Meta = .nil → (firstSession u e).1.Meta = .mk .nil) ∧
    (∀ dst : GoMap, mergeMaps dst .nil = some dst) :=
  ⟨goSort_lawful, session_meta_allocated goSort goSort_lawful gapEvents⟩

/-- C17 as stated fails with `sort.Slice` as in the Go releases before 1.19:
sorted together with the events of the other users, the two events of u1 at
one timestamp change places (the Shell pass moves the first of them behind the
second), and sorted alone they do not, so the session of u1 holds `{"a":2}` in
the result on all events and `{"a":1}` in the result on the events of u1. -/
theorem tie_order_depends_on_others :
    legacySort.Lawful ∧
    (mergeUserEvents legacySort tieMixedEvents).map
        (List.filter (fun s => decide (s.UserID = "u1"))) =
      some [⟨"u1", 0, 0, ["t"], mapA 2⟩] ∧
    mergeUserEvents legacySort
        (tieMixedEvents.filter (fun e => decide (e.UserID = "u1"))) =
      some [⟨"u1", 0, 0, ["t"], mapA 1⟩] ∧
    ¬ ∀ (S : SliceSort), S.Lawful → ∀ (events : List Event) (u : String),
      (mergeUserEvents S events).map (List.filter (fun s => decide (s.UserID = u))) =
        mergeUserEvents S (events.filter (fun e => decide (e.UserID = u))) := by
  refine ⟨legacySort_lawful, by decide, by decide, ?_⟩
  intro h
  have h1 := h legacySort legacySort_lawful tieMixedEvents "u1"
  revert h1
  decide

/-- C17, amended: the sessions of user `u` in the result, in output order, are
the result of `mergeUserEvents` on the events of `u` alone, for every
`sort.Slice` within its contract when no two events of `u` share a timestamp,
and for every list of events with the insertion sort of Go 1.19 and later,
which keeps equal elements in input order. -/
theorem user_independent (S : SliceSort) (hS : S.Lawful) (events : List Event) (u : String) :
    ((events.filter (fun e => decide (e.UserID = u))).Pairwise (fun a b => a.TS ≠ b.TS) →
      (mergeUserEvents S events).map (List.filter (fun s => decide (s.UserID = u))) =
        mergeUserEvents S (events.filter (fun e => decide (e.UserID = u)))) ∧
    (mergeUserEvents goSort events).map (List.filter (fun s => decide (s.UserID = u))) =
      mergeUserEvents goSort (events.filter (fun e => decide (e.UserID = u))) := by
  constructor
  · intro hd
    apply user_independent_of_sort S hS events u
    have hperm : ((S.events events).filter (fun e => decide (e.UserID = u))).Perm
        (events.filter (fun e => decide (e.UserID = u))) := (hS.events_perm events).filter _
    have hd1 : ((S.events events).filter (fun e => decide (e.UserID = u))).Pairwise
        (fun a b => a.TS ≠ b.TS) :=
      (hperm.pairwise_iff (fun {a b} h => Ne.symm h)).2 hd
    have hle : ((S.events events).filter (fun e => decide (e.UserID = u))).Pairwise
        (fun a b => eventKey a ≤ eventKey b) := (sorted_key S hS events).filter _
    have hstrict : ((S.events events).filter (fun e => decide (e.UserID = u))).Pairwise
        (fun a b => eventKey a < eventKey b) := by
      refine (hle.and hd1).imp ?_
      intro a b ⟨h1, h2⟩
      refine lt_of_le_of_ne h1 ?_
      intro hk
      unfold eventKey at hk
      have hk2 : (a.UserID.data, a.TS) = (b.UserID.data, b.TS) := toLex.injective hk
      simp only [Prod.mk.injEq] at hk2
      exact h2 hk2.2
    exact sort_events_of_strict S hS _ _ hperm.symm hstrict
  · apply user_independent_of_sort goSort goSort_lawful events u
    exact (insertionSort_func_filter eventLess eventKey eventLess_iff _ events).symm

/-- C17, amended, on an input in which user u1 has two sessions and no two
events at one timestamp. -/
theorem user_independent_witness :
    goSort.Lawful ∧
    (gapEvents.filter (fun e => decide (e.UserID = "u1"))).Pairwise (fun a b => a.TS ≠ b.TS) ∧
    (mergeUserEvents goSort gapEvents).map (List.filter (fun s => decide (s.UserID = "u1"))) =
      mergeUserEvents goSort (gapEvents.filter (fun e => decide (e.UserID = "u1"))) ∧
    mergeUserEvents goSort (gapEvents.filter (fun e => decide (e.UserID = "u1"))) =
      some [⟨"u1", 0, 100, ["a", "b"], mapA 1⟩, ⟨"u1", 1000, 1000, ["a"], mapA 2⟩] :=
  ⟨goSort_lawful, by decide,
    (user_independent goSort goSort_lawful gapEvents "u1").1 (by decide), by decide⟩

/-- C18 as stated fails: two sessions of different users with one `StartTS`
are left by the final `sort.Slice` in the order they come in, so concatenating
the per-user lists in the order u2, u1 gives a list other than the one
`mergeUserEvents` returns. -/
theorem start_tie_keeps_concat_order :
    mergeUserEvents goSort crossTieEvents =
      some [⟨"u1", 0, 0, ["t"], .mk .nil⟩, ⟨"u2", 0, 0, ["t"], .mk .nil⟩] ∧
    perUserConcat ["u2", "u1"] [⟨"u1", 0, 0, ["t"], .mk .nil⟩, ⟨"u2", 0, 0, ["t"], .mk .nil⟩] =
      [⟨"u2", 0, 0, ["t"], .mk .nil⟩, ⟨"u1", 0, 0, ["t"], .mk .nil⟩] ∧
    ¬ (some (goSort.sessions (perUserConcat ["u2", "u1"]
          [⟨"u1", 0, 0, ["t"], .mk .nil⟩, ⟨"u2", 0, 0, ["t"], .mk .nil⟩])) =
        mergeUserEvents goSort crossTieEvents) := by
  decide

/-- C18, amended: when no two sessions of the result have the same `StartTS`,
sorting by `StartTS` any permutation of the sessions built, and so the
concatenation of the per-user session lists in any order of the users, gives
the very list `mergeUserEvents` returns. -/
theorem sort_absorbs_order (S : SliceSort) (hS : S.Lawful) (events : List Event)
    (hd : ∀ out, mergeUserEvents S events = some out →
      out.Pairwise (fun a b => a.StartTS ≠ b.StartTS)) :
    ∃ calls out, buildCalls (S.events events) ((S.events events).length + 1) 0 = some calls ∧
      mergeUserEvents S events = some out ∧
      (∀ P : List Session, P.Perm (calls.map Call.session) → S.sessions P = out) ∧
      ∀ users : List String, users.Nodup → (∀ e ∈ events, e.UserID ∈ users) →
        S.sessions (perUserConcat users (calls.map Call.session)) = out := by
  obtain ⟨calls, hc, hm, hruns, hsess, _⟩ := mergeUserEvents_calls S hS events
  have hsorted := (hS.sessions_sorted (calls.map Call.session)).imp
    (fun h => (sessionLess_eq_false_iff _ _).1 h)
  have hstrict : (S.sessions (calls.map Call.session)).Pairwise
      (fun a b => a.StartTS < b.StartTS) :=
    (hsorted.and (hd _ hm)).imp (fun h => lt_of_le_of_ne h.1 h.2)
  have hperm : ∀ P : List Session, P.Perm (calls.map Call.session) →
      S.sessions P = S.sessions (calls.map Call.session) := by
    intro P hP
    refine eq_of_perm_of_strict Session.StartTS _ _ ?_ ?_ hstrict
    · exact ((hS.sessions_perm P).trans hP).trans (hS.sessions_perm _).symm
    · exact (hS.sessions_sorted P).imp (fun h => (sessionLess_eq_false_iff _ _).1 h)
  refine ⟨calls, _, hc, hm, hperm, ?_⟩
  intro users hnd hcover
  apply hperm
  apply perUserConcat_perm users _ hnd
  intro s hs
  obtain ⟨c, hcm, rfl⟩ := List.mem_map.1 hs
  obtain ⟨e, tail, hr, hu, _⟩ := call_run_user _ calls hruns hsess c hcm
  rw [hu]
  apply hcover
  apply (hS.events_perm events).mem_iff.1
  have hflat := runsOf_flatten (S.events events)
  rw [← hflat, ← hruns]
  exact List.mem_flatten.2 ⟨c.run (S.events events), List.mem_map_of_mem _ hcm,
    by rw [hr]; simp⟩

/-- C18, amended, on an input with three sessions of two users, the per-user
lists concatenated in the order u2, u1. -/
theorem sort_absorbs_order_witness :
    goSort.Lawful ∧
    mergeUserEvents goSort gapEvents =
      some [⟨"u1", 0, 100, ["a", "b"], mapA 1⟩, ⟨"u2", 50, 50, ["b"], mapA 7⟩,
        ⟨"u1", 1000, 1000, ["a"], mapA 2⟩] ∧
    ∃ calls out,
      buildCalls (goSort.events gapEvents) ((goSort.events gapEvents).length + 1) 0 =
        some calls ∧
      mergeUserEvents goSort gapEvents = some out ∧
      (∀ P : List Session, P.Perm (calls.map Call.session) → goSort.sessions P = out) ∧
      ∀ users : List String, users.Nodup → (∀ e ∈ gapEvents, e.UserID ∈ users) →
        goSort.sessions (perUserConcat users (calls.map Call.session)) = out :=
  ⟨goSort_lawful, by decide,
    sort_absorbs_order goSort goSort_lawful gapEvents (by
      intro out h
      have h2 : mergeUserEvents goSort gapEvents =
          some [⟨"u1", 0, 100, ["a", "b"], mapA 1⟩, ⟨"u2", 50, 50, ["b"], mapA 7⟩,
            ⟨"u1", 1000, 1000, ["a"], mapA 2⟩] := by decide
      rw [h2] at h
      simp only [Option.some.injEq] at h
      subst h
      decide)⟩

/-- C19: the ordering step leaves the input slice as it was and produces a
sequence that is a permutation of the input, sorted by `UserID` ascending and
then `TS` ascending, in which the events of each user stand together. -/
theorem ordering_step (S : SliceSort) (hS : S.Lawful) (events : List Event) :
    (orderingStep S events).1 = events ∧
    (orderingStep S events).2 = S.events events ∧
    (S.events events).Perm events ∧
    (S.events events).Pairwise
      (fun a b => strLess a.UserID b.UserID = true ∨ (a.UserID = b.UserID ∧ a.TS ≤ b.TS)) ∧
    ∀ u : String, ∃ A C,
      S.events events = A ++ (S.events events).filter (fun e => decide (e.UserID = u)) ++ C ∧
      (∀ e ∈ A, e.UserID ≠ u) ∧ (∀ e ∈ C, e.UserID ≠ u) := by
  refine ⟨rfl, rfl, hS.events_perm events, ?_, ?_⟩
  · refine (sorted_key S hS events).imp ?_
    intro a b h
    unfold eventKey at h
    rw [Prod.Lex.le_iff] at h
    rcases h with h | h
    · exact Or.inl (by simpa [strLess] using h)
    · exact Or.inr ⟨String.ext h.1, h.2⟩
  · intro u
    have hkey : (S.events events).Pairwise
        (fun a b => a.UserID.data ≤ b.UserID.data) :=
      (sorted_key S hS events).imp (fun h => eventKey_le_user h)
    obtain ⟨A, C, h, hA, hC⟩ := sorted_contiguous (fun e : Event => e.UserID.data) u.data
      (fun e => decide (e.UserID = u))
      (by
        intro e
        simp only [decide_eq_true_eq]
        exact ⟨fun h => by rw [h], fun h => String.ext h⟩)
      (S.events events) hkey
    refine ⟨A, C, h, ?_, ?_⟩
    · intro e he hu
      exact absurd (hA e he) (by rw [hu]; exact lt_irrefl _)
    · intro e he hu
      exact absurd (hC e he) (by rw [hu]; exact lt_irrefl _)

/-- C19 on the demonstration input of `main`, reversed, which the insertion
sort puts back in order. -/
theorem ordering_step_witness :
    goSort.Lawful ∧
    goSort.events mainEvents.reverse = mainEvents ∧
    (orderingStep goSort mainEvents.reverse).1 = mainEvents.reverse ∧
    (orderingStep goSort mainEvents.reverse).2 = goSort.events mainEvents.reverse ∧
    (goSort.events mainEvents.reverse).Perm mainEvents.reverse ∧
    (goSort.events mainEvents.reverse).Pairwise
      (fun a b => strLess a.UserID b.UserID = true ∨ (a.UserID = b.UserID ∧ a.TS ≤ b.TS)) ∧
    ∀ u : String, ∃ A C,
      goSort.events mainEvents.reverse =
        A ++ (goSort.events mainEvents.reverse).filter (fun e => decide (e.UserID = u)) ++ C ∧
      (∀ e ∈ A, e.UserID ≠ u) ∧ (∀ e ∈ C, e.UserID ≠ u) :=
  ⟨goSort_lawful, by decide, ordering_step goSort goSort_lawful mainEvents.reverse⟩

/-- C20: the index traversal is total and in bounds.  For every list of events
and every index `i < len(events)`, `buildSession` returns (no read, that of
`events[idx-1]` included, is out of range, and the loop ends) with the index
strictly greater than `i` and at most `len(events)`; started out of range it
panics.  `processUserSessions` returns an index in `(startIdx, len(events)]`,
having appended at least one session, and the loop of `mergeUserEvents` ends
with at most `len(events)` sessions, built by calls that follow one another
from index 0 to `len(events)`. -/
theorem index_traversal_total (events : List Event) :
    (∀ (i : Nat) (userID : String), i < events.length →
      ∃ s j, buildSession events i userID = some (s, j) ∧ i < j ∧ j ≤ events.length) ∧
    (∀ (i : Nat) (userID : String), events.length ≤ i → buildSession events i userID = none) ∧
    (∀ (startIdx : Nat) (sessions : List Session), startIdx < events.length →
      ∃ j out, processUserSessions events startIdx sessions = some (j, out) ∧
        startIdx < j ∧ j ≤ events.length ∧ sessions.length < out.length) ∧
    (∃ sessions calls, mergeUserLoop events (events.length + 1) 0 [] = some sessions ∧
      buildCalls events (events.length + 1) 0 = some calls ∧
      sessions = calls.map Call.session ∧
      chained 0 calls events.length ∧
      sessions.length ≤ events.length) := by
  refine ⟨fun i u hi => buildSession_total events i u hi, ?_,
    fun i ss hi => processUserSessions_total events i ss hi, ?_⟩
  · intro i u hi
    unfold buildSession
    rw [List.getElem?_eq_none hi]
  · obtain ⟨calls, hc, hruns, hsess, hch⟩ :=
      buildCalls_spec events events.length events [] (events.length + 1) (le_refl _)
        (by simp) (by omega)
    have hm := mergeUserLoop_spec events events.length events [] (events.length + 1) []
      (le_refl _) (by simp) (by omega)
    simp only [List.length_nil, List.nil_append] at hc hch hm
    refine ⟨_, calls, hm, hc, ?_, hch, ?_⟩
    · rw [← hruns, sessions_of_calls events calls hsess]
    · exact le_trans (List.length_filterMap_le _ _) (runsOf_length_le events)

/-- C20 on a list of four events, with the calls made and the indices returned. -/
theorem index_traversal_total_witness :
    (∃ s j, buildSession gapEvents 2 "u1" = some (s, j) ∧ 2 < j ∧ j ≤ gapEvents.length) ∧
    buildSession gapEvents 2 "u1" = some (⟨"u1", 100, 100, ["b"], mapA 1⟩, 3) ∧
    buildSession gapEvents 4 "u1" = none ∧
    processUserSessions gapEvents 0 [] = some (1, [⟨"u1", 0, 0, ["a"], .mk .nil⟩]) ∧
    (mergeUserLoop gapEvents 5 0 []).map List.length = some 4 :=
  ⟨(index_traversal_total gapEvents).1 2 "u1" (by decide), by decide, by decide, by decide,
    by decide⟩

end Sessionizer
